import Mathlib

/-!
Verification of the `djust_vdom` virtual-DOM diff/patch engine
(`crates/djust_vdom/src/{lib,diff,patch,parser}.rs`).

The data model follows `lib.rs` (`VNode`, `Patch`) extended with the
`djust_id` node field and the `d` patch field that `diff.rs`, `patch.rs`
and `parser.rs` all require (the `lib.rs` snapshot in the repository
predates those files; the identity field is the spec's `identity`).

Rust `HashMap<String, String>` attribute maps are modelled as association
lists with distinct keys; iteration order of a `HashMap` is arbitrary in
Rust, and the list order stands in for one such arbitrary order.  All
properties proved here are insensitive to that order in the same way the
Rust code is.

The diff recursion is modelled with an explicit fuel parameter (the Rust
recursion is bounded by tree depth); `none` means the fuel ran out, which
cannot happen for the fuel budget used by the `diffNodes` wrapper.  The
patch applier threads `Option` so that the one reachable Rust panic site
(`Vec::insert` in the index-based `MoveChild` fallback of
`apply_patches`/`apply_patch`) is modelled as `none`.
-/



/-- One virtual-DOM node (`lib.rs` `VNode` plus the `djust_id` field used
by `diff.rs`/`patch.rs`/`parser.rs`). -/
structure VNode where
  tag : String
  attrs : List (String × String)
  children : List VNode
  text : Option String
  key : Option String
  djust_id : Option String

/-- A patch operation (`lib.rs` `Patch` plus the `d` target-identity field
used by `diff.rs`/`patch.rs`). -/
inductive Patch where
  | replace (path : List Nat) (d : Option String) (node : VNode)
  | setText (path : List Nat) (d : Option String) (text : String)
  | setAttr (path : List Nat) (d : Option String) (key value : String)
  | removeAttr (path : List Nat) (d : Option String) (key : String)
  | insertChild (path : List Nat) (d : Option String) (index : Nat) (node : VNode)
  | removeChild (path : List Nat) (d : Option String) (index : Nat)
  | moveChild (path : List Nat) (d : Option String) (src dst : Nat)

mutual

/-- Number of nodes in a tree (used as a fuel budget: the diff recursion
depth is bounded by the old tree's depth, which is below its node count). -/
def nodeSize : VNode → Nat
  | ⟨_, _, cs, _, _, _⟩ => 1 + listSize cs

/-- Total node count of a forest. -/
def listSize : List VNode → Nat
  | [] => 0
  | c :: rest => nodeSize c + listSize rest

end

/-- The `path` field shared by every patch variant. -/
def Patch.path : Patch → List Nat
  | .replace p _ _ => p
  | .setText p _ _ => p
  | .setAttr p _ _ _ => p
  | .removeAttr p _ _ => p
  | .insertChild p _ _ _ => p
  | .removeChild p _ _ => p
  | .moveChild p _ _ _ => p

/-- `VNode::is_text`. -/
def VNode.is_text (n : VNode) : Bool := n.tag == "#text"

/-- `HashMap::get` on an attribute map. -/
def attrsGet : List (String × String) → String → Option String
  | [], _ => none
  | kv :: rest, k => if kv.1 == k then some kv.2 else attrsGet rest k

/-- `HashMap::contains_key` on an attribute map. -/
def attrsHas (m : List (String × String)) (k : String) : Bool :=
  (attrsGet m k).isSome

/-- `HashMap::insert` (upsert) on an attribute map. -/
def attrsInsert (m : List (String × String)) (k v : String) : List (String × String) :=
  if attrsHas m k then m.map (fun kv => if kv.1 == k then (kv.1, v) else kv)
  else m ++ [(k, v)]

/-- `HashMap::remove` on an attribute map. -/
def attrsRemove (m : List (String × String)) (k : String) : List (String × String) :=
  m.filter (fun kv => kv.1 != k)

/-- `diff.rs::diff_attrs`: removed/changed attributes from the old map, then
added attributes from the new map; the key `data-dj-id` is skipped in both
passes. -/
def diffAttrs (old new : VNode) (path : List Nat) (d : Option String) : List Patch :=
  (old.attrs.filterMap (fun kv =>
    if kv.1 == "data-dj-id" then none
    else
      match attrsGet new.attrs kv.1 with
      | none => some (Patch.removeAttr path d kv.1)
      | some nv => if nv ≠ kv.2 then some (Patch.setAttr path d kv.1 nv) else none))
  ++ (new.attrs.filterMap (fun kv =>
    if kv.1 == "data-dj-id" then none
    else if attrsHas old.attrs kv.1 then none
    else some (Patch.setAttr path d kv.1 kv.2)))

/-- `diff.rs::replace_all_children`: `RemoveChild` for every old child in
descending index order, then `InsertChild` for every new child in ascending
index order. -/
def replaceAllChildren (old new : VNode) (path : List Nat) (pid : Option String) : List Patch :=
  ((List.range old.children.length).reverse.map (fun i => Patch.removeChild path pid i))
  ++ (new.children.enum.map (fun p => Patch.insertChild path pid p.1 p.2))

/-- The `key -> index` entries of the suffix of a child list starting at
absolute index `b`, in index order (the keyed entries of
`iter().enumerate().filter_map(..)`); the node is kept alongside the index
(Rust keeps the index and re-reads `old[idx]`, which is the same node). -/
def keysMapFrom : List VNode → Nat → List (String × Nat × VNode)
  | [], _ => []
  | n :: rest, b =>
    (match n.key with
     | some k => [(k, b, n)]
     | none => []) ++ keysMapFrom rest (b + 1)

/-- The `key -> index` map of a child list. -/
def keysMapN (l : List VNode) : List (String × Nat × VNode) := keysMapFrom l 0

/-- `HashMap::get`: last insertion wins, as in `collect()` on duplicate keys. -/
def lookupLast : List (String × Nat × VNode) → String → Option (Nat × VNode)
  | [], _ => none
  | e :: rest, k =>
    match lookupLast rest k with
    | some v => some v
    | none => if e.1 == k then some e.2 else none

/-- One entry per distinct key (dropping all but the last occurrence), as
iterating the Rust `HashMap` does. -/
def dedupLast : List (String × Nat × VNode) → List (String × Nat × VNode)
  | [] => []
  | e :: rest => if (lookupLast rest e.1).isSome then dedupLast rest else e :: dedupLast rest

/-- `diff_keyed_children` first loop: `RemoveChild` for every old key absent
from the new key map. -/
def keyRemovals (oldKeys newKeys : List (String × Nat × VNode)) (path : List Nat)
    (pid : Option String) : List Patch :=
  (dedupLast oldKeys).filterMap (fun e =>
    if (lookupLast newKeys e.1).isSome then none
    else some (Patch.removeChild path pid e.2.1))

/-- `diff_keyed_children` keyed pass: walk the new children; a keyed child
absent from the old key map is inserted, a keyed child present in the old
map is moved if displaced and then recursively diffed.  Returns the patches
and the set of processed old indices. -/
def keyedGoF (next : VNode → VNode → List Nat → Option (List Patch))
    (oldKeys : List (String × Nat × VNode)) (path : List Nat) (pid : Option String) :
    List VNode → Nat → List Nat → Option (List Patch × List Nat)
  | [], _, po => some ([], po)
  | n :: rest, i, po =>
    match n.key with
    | none => keyedGoF next oldKeys path pid rest (i + 1) po
    | some k =>
      match lookupLast oldKeys k with
      | none =>
        (keyedGoF next oldKeys path pid rest (i + 1) po).map
          (fun r => (Patch.insertChild path pid i n :: r.1, r.2))
      | some (oi, onode) =>
        let mv := if oi ≠ i then [Patch.moveChild path pid oi i] else []
        match next onode n (path ++ [i]) with
        | none => none
        | some inner =>
          (keyedGoF next oldKeys path pid rest (i + 1) (po ++ [oi])).map
            (fun r => (mv ++ inner ++ r.1, r.2))

/-- `diff_keyed_children` unkeyed pass: an unkeyed new child at index `i` is
diffed against an unkeyed, unprocessed old child at the same raw index if
one exists, and inserted otherwise.  (The Rust `processed_new_indices` check
is redundant with the `key.is_none()` test and is omitted.) -/
def unkeyedGoF (next : VNode → VNode → List Nat → Option (List Patch))
    (oldC : List VNode) (path : List Nat) (pid : Option String) :
    List VNode → Nat → List Nat → Option (List Patch × List Nat)
  | [], _, po => some ([], po)
  | n :: rest, i, po =>
    if n.key.isNone then
      match oldC.get? i with
      | some o =>
        if o.key.isNone && !(po.contains i) then
          match next o n (path ++ [i]) with
          | none => none
          | some inner =>
            (unkeyedGoF next oldC path pid rest (i + 1) (po ++ [i])).map
              (fun r => (inner ++ r.1, r.2))
        else
          (unkeyedGoF next oldC path pid rest (i + 1) po).map
            (fun r => (Patch.insertChild path pid i n :: r.1, r.2))
      | none =>
        (unkeyedGoF next oldC path pid rest (i + 1) po).map
          (fun r => (Patch.insertChild path pid i n :: r.1, r.2))
    else unkeyedGoF next oldC path pid rest (i + 1) po

/-- `diff_keyed_children` final loop over the old suffix starting at
absolute index `i`: remove every unprocessed unkeyed old child whose index
has no unkeyed counterpart in the new list. -/
def removalScanFrom (newC : List VNode) (po : List Nat) (path : List Nat)
    (pid : Option String) : List VNode → Nat → List Patch
  | [], _ => []
  | n :: rest, i =>
    (if n.key.isNone && !(po.contains i) &&
        (match newC.get? i with
         | none => true
         | some nn => nn.key.isSome)
     then [Patch.removeChild path pid i] else [])
    ++ removalScanFrom newC po path pid rest (i + 1)

/-- `diff_keyed_children` final loop: remove every unprocessed unkeyed old
child whose index has no unkeyed counterpart in the new list. -/
def removalScan (oldC newC : List VNode) (po : List Nat) (path : List Nat)
    (pid : Option String) : List Patch :=
  removalScanFrom newC po path pid oldC 0

/-- `diff.rs::diff_keyed_children`. -/
def diffKeyedChildrenF (next : VNode → VNode → List Nat → Option (List Patch))
    (oldC newC : List VNode) (path : List Nat) (pid : Option String) :
    Option (List Patch) :=
  let oldKeys := keysMapN oldC
  let newKeys := keysMapN newC
  let removes := keyRemovals oldKeys newKeys path pid
  match keyedGoF next oldKeys path pid newC 0 [] with
  | none => none
  | some (kps, po1) =>
    match unkeyedGoF next oldC path pid newC 0 po1 with
    | none => none
    | some (ups, po2) => some (removes ++ kps ++ ups ++ removalScan oldC newC po2 path pid)

/-- `diff_indexed_children` pairwise loop over the common prefix. -/
def indexedGoF (next : VNode → VNode → List Nat → Option (List Patch))
    (path : List Nat) : List VNode → List VNode → Nat → Option (List Patch)
  | o :: os, n :: ns, i =>
    match next o n (path ++ [i]) with
    | none => none
    | some ps => (indexedGoF next path os ns (i + 1)).map (fun rest => ps ++ rest)
  | _, _, _ => some []

/-- `diff.rs::diff_indexed_children`: pairwise diff of the common prefix,
then tail removals in descending order or tail insertions in ascending
order. -/
def diffIndexedChildrenF (next : VNode → VNode → List Nat → Option (List Patch))
    (oldC newC : List VNode) (path : List Nat) (pid : Option String) :
    Option (List Patch) :=
  (indexedGoF next path oldC newC 0).map (fun pairs =>
    pairs
    ++ (if newC.length < oldC.length then
          ((List.range' newC.length (oldC.length - newC.length)).reverse).map
            (fun i => Patch.removeChild path pid i)
        else [])
    ++ (if oldC.length < newC.length then
          (newC.enum.drop oldC.length).map (fun p => Patch.insertChild path pid p.1 p.2)
        else []))

/-- `diff.rs::diff_children`: replace-all mode when `data-djust-replace` is
present on either node, keyed mode when any new child carries a key, indexed
mode otherwise. -/
def diffChildrenF (next : VNode → VNode → List Nat → Option (List Patch))
    (old new : VNode) (path : List Nat) (pid : Option String) :
    Option (List Patch) :=
  if attrsHas old.attrs "data-djust-replace" || attrsHas new.attrs "data-djust-replace" then
    some (replaceAllChildren old new path pid)
  else if new.children.any (fun n => n.key.isSome) then
    diffKeyedChildrenF next old.children new.children path pid
  else
    diffIndexedChildrenF next old.children new.children path pid

/-- `diff.rs::diff_nodes`, with an explicit fuel bound on the recursion
depth (`none` = out of fuel; the `diffNodes` wrapper always supplies enough
fuel).  Tag mismatch yields a single `Replace` targeting the old node's
identity; text nodes compare text; element nodes diff attributes then
children. -/
def diffNodesF : Nat → VNode → VNode → List Nat → Option (List Patch)
  | 0, _, _, _ => none
  | fuel + 1, old, new, path =>
    let target := old.djust_id
    if old.tag ≠ new.tag then
      some [Patch.replace path target new]
    else if old.is_text then
      if old.text ≠ new.text then
        match new.text with
        | some t => some [Patch.setText path none t]
        | none => some []
      else some []
    else
      (diffChildrenF (diffNodesF fuel) old new path target).map
        (fun cps => diffAttrs old new path target ++ cps)

/-- `diff.rs::diff_nodes` as a total function: the fuel `nodeSize old + 1`
strictly exceeds the recursion depth, which descends into children of the
old tree at every nested call. -/
def diffNodes (old new : VNode) (path : List Nat) : List Patch :=
  (diffNodesF (nodeSize old + 1) old new path).getD []

/-- `lib.rs::diff`. -/
def diff (old new : VNode) : List Patch := diffNodes old new []

/-- `patch.rs::get_node`: resolve an index path from the root. -/
def getNode : VNode → List Nat → Option VNode
  | root, [] => some root
  | root, i :: rest =>
    match root.children.get? i with
    | none => none
    | some c => getNode c rest

/-- `patch.rs::get_node_mut` followed by an in-place update: apply `f` to the
node at `path`, or leave the tree unchanged when the path does not resolve. -/
def updateAt : VNode → List Nat → (VNode → VNode) → VNode
  | root, [], f => f root
  | root, i :: rest, f =>
    match root.children.get? i with
    | none => root
    | some c => { root with children := root.children.set i (updateAt c rest f) }

/-- As `updateAt`, but the update itself may hit a Rust panic site (`none`).
An unresolvable path is still a silent no-op (`some root`), as in the Rust
`if let Some(target) = get_node_mut(..)`. -/
def updateAtP : VNode → List Nat → (VNode → Option VNode) → Option VNode
  | root, [], f => f root
  | root, i :: rest, f =>
    match root.children.get? i with
    | none => some root
    | some c =>
      (updateAtP c rest f).map (fun c2 => { root with children := root.children.set i c2 })

/-- `patch.rs::apply_patch`: apply a single patch, mirroring each guard of
the Rust code.  The only panic site (`none`) is `Vec::insert` in the
`MoveChild` arm when the destination index equals the pre-removal child
count. -/
def applyPatchP (root : VNode) (p : Patch) : Option VNode :=
  match p with
  | .replace path _ node => some (updateAt root path (fun _ => node))
  | .setText path _ text => some (updateAt root path (fun t => { t with text := some text }))
  | .setAttr path _ k v =>
    some (updateAt root path (fun t => { t with attrs := attrsInsert t.attrs k v }))
  | .removeAttr path _ k =>
    some (updateAt root path (fun t => { t with attrs := attrsRemove t.attrs k }))
  | .insertChild path _ i node =>
    some (updateAt root path (fun t =>
      if i ≤ t.children.length then { t with children := t.children.insertNth i node } else t))
  | .removeChild path _ i =>
    some (updateAt root path (fun t =>
      if i < t.children.length then { t with children := t.children.eraseIdx i } else t))
  | .moveChild path _ src dst =>
    updateAtP root path (fun t =>
      if src < t.children.length ∧ dst ≤ t.children.length then
        match t.children.get? src with
        | some node =>
          let cs := t.children.eraseIdx src
          if dst ≤ cs.length then some { t with children := cs.insertNth dst node }
          else none
        | none => none
      else some t)

/-- `patch.rs::apply_patch` as a total function (`getD root`: the panic site
is unreachable for the inputs on which this wrapper is used). -/
def applyPatch (root : VNode) (p : Patch) : VNode :=
  (applyPatchP root p).getD root

/-- The pre-mutation `MoveChild` snapshot of `apply_patches`: the
`(index, djust_id)` pairs of the children of the node at `path` in the
original tree, or `[]` when the path does not resolve. -/
def snapIds (root : VNode) (path : List Nat) : List (Nat × Option String) :=
  match getNode root path with
  | some t => t.children.enum.map (fun p => (p.1, p.2.djust_id))
  | none => []

/-- Insert into a sorted list, after any element not strictly greater
(a stable insertion, matching Rust's stable `sort_by`). -/
def insSorted (lt : α → α → Bool) (x : α) : List α → List α
  | [] => [x]
  | y :: ys => if lt x y then x :: y :: ys else y :: insSorted lt x ys

/-- Stable sort by a strict comparison, matching Rust's stable `sort_by`. -/
def stableSortBy (lt : α → α → Bool) (l : List α) : List α :=
  l.foldl (fun acc x => insSorted lt x acc) []

/-- Lexicographic order on `Vec<usize>` paths (`Ord` on `Vec`). -/
def pathLt : List Nat → List Nat → Bool
  | [], [] => false
  | [], _ :: _ => true
  | _ :: _, [] => false
  | x :: xs, y :: ys => x < y || (x == y && pathLt xs ys)

/-- The `RemoveChild` patches of one depth level, sorted by path ascending
then index descending, as `apply_patches` sorts its removes. -/
def removesAt (d : Nat) (ps : List Patch) : List (List Nat × Nat) :=
  stableSortBy
    (fun a b => pathLt a.1 b.1 || (a.1 == b.1 && b.2 < a.2))
    (ps.filterMap (fun p =>
      match p with
      | .removeChild path _ i => if path.length == d then some (path, i) else none
      | _ => none))

/-- The `InsertChild` patches of one depth level, sorted by path ascending
then index ascending. -/
def insertsAt (d : Nat) (ps : List Patch) : List (List Nat × Nat × VNode) :=
  stableSortBy
    (fun a b => pathLt a.1 b.1 || (a.1 == b.1 && a.2.1 < b.2.1))
    (ps.filterMap (fun p =>
      match p with
      | .insertChild path _ i n => if path.length == d then some (path, i, n) else none
      | _ => none))

/-- The `MoveChild` patches of one depth level, in original patch order. -/
def movesAt (d : Nat) (ps : List Patch) : List (List Nat × Nat × Nat) :=
  ps.filterMap (fun p =>
    match p with
    | .moveChild path _ src dst => if path.length == d then some (path, src, dst) else none
    | _ => none)

/-- The non-child-mutation patches of one depth level, in original order. -/
def othersAt (d : Nat) (ps : List Patch) : List Patch :=
  ps.filter (fun p =>
    (match p with
     | .replace _ _ _ => true
     | .setText _ _ _ => true
     | .setAttr _ _ _ _ => true
     | .removeAttr _ _ _ => true
     | _ => false)
    && p.path.length == d)

/-- One `RemoveChild` application inside `apply_patches` (guarded, no-op
when the path does not resolve or the index is out of range). -/
def stepRemove (r : VNode) (path : List Nat) (i : Nat) : VNode :=
  updateAt r path (fun t =>
    if i < t.children.length then { t with children := t.children.eraseIdx i } else t)

/-- One `InsertChild` application inside `apply_patches` (the insertion
index is clamped to the child count). -/
def stepInsert (r : VNode) (path : List Nat) (i : Nat) (node : VNode) : VNode :=
  updateAt r path (fun t =>
    { t with children := t.children.insertNth (min i t.children.length) node })

/-- One `MoveChild` application inside `apply_patches`: resolve the moved
child by the `djust_id` recorded for the `src` index in the pre-mutation
snapshot; fall back to raw indices when no id is available, where the
`Vec::insert` call can panic (`none`). -/
def stepMoveP (snap : List Nat → List (Nat × Option String)) (r : VNode)
    (path : List Nat) (src dst : Nat) : Option VNode :=
  let childId := ((snap path).find? (fun e => e.1 == src)).bind (fun e => e.2)
  updateAtP r path (fun t =>
    match childId with
    | some cid =>
      match t.children.findIdx? (fun c => c.djust_id == some cid) with
      | some pos =>
        match t.children.get? pos with
        | some node =>
          let cs := t.children.eraseIdx pos
          some { t with children := cs.insertNth (min dst cs.length) node }
        | none => none
      | none => some t
    | none =>
      if src < t.children.length ∧ dst ≤ t.children.length then
        match t.children.get? src with
        | some node =>
          let cs := t.children.eraseIdx src
          if dst ≤ cs.length then some { t with children := cs.insertNth dst node }
          else none
        | none => none
      else some t)

/-- Apply all `MoveChild` patches of a level in order. -/
def movesGoP (snap : List Nat → List (Nat × Option String)) :
    VNode → List (List Nat × Nat × Nat) → Option VNode
  | r, [] => some r
  | r, m :: ms =>
    match stepMoveP snap r m.1 m.2.1 m.2.2 with
    | none => none
    | some r2 => movesGoP snap r2 ms

/-- Apply the non-child-mutation patches of a level in order. -/
def othersGoP : VNode → List Patch → Option VNode
  | r, [] => some r
  | r, p :: ps =>
    match applyPatchP r p with
    | none => none
    | some r2 => othersGoP r2 ps

/-- Process one depth level of `apply_patches`: removes (path asc, index
desc), then moves (id-resolved), then inserts (path asc, index asc), then
the remaining patch kinds. -/
def applyLevelP (snap : List Nat → List (Nat × Option String)) (ps : List Patch)
    (r : VNode) (d : Nat) : Option VNode :=
  let r1 := (removesAt d ps).foldl (fun r e => stepRemove r e.1 e.2) r
  match movesGoP snap r1 (movesAt d ps) with
  | none => none
  | some r2 =>
    let r3 := (insertsAt d ps).foldl (fun r e => stepInsert r e.1 e.2.1 e.2.2) r2
    othersGoP r3 (othersAt d ps)

/-- Fold the levels in ascending depth order. -/
def levelsGoP (snap : List Nat → List (Nat × Option String)) (ps : List Patch) :
    VNode → List Nat → Option VNode
  | r, [] => some r
  | r, d :: ds =>
    match applyLevelP snap ps r d with
    | none => none
    | some r2 => levelsGoP snap ps r2 ds

/-- The distinct patch depths in ascending order (the `BTreeMap` keys). -/
def depthsOf (ps : List Patch) : List Nat :=
  stableSortBy (fun a b => a < b) ((ps.map (fun p => p.path.length)).dedup)

/-- `patch.rs::apply_patches`: snapshot `MoveChild` sources on the original
tree, then process the patches level by level.  `none` is the Rust panic in
the index-fallback `MoveChild` arm. -/
def applyPatchesP (root : VNode) (ps : List Patch) : Option VNode :=
  levelsGoP (snapIds root) ps root (depthsOf ps)

/-- `patch.rs::apply_patches` as a total function (`getD root` at the panic
site). -/
def applyPatches (root : VNode) (ps : List Patch) : VNode :=
  (applyPatchesP root ps).getD root

/-- Structural equality ignoring identities, as defined by the repository's
`fuzz_test.rs::structurally_equal`: equal tags, text, attribute maps minus
the `data-dj-id` key, and pointwise structurally equal children (fuel-indexed
with the node count of the left tree as budget). -/
def structEqF : Nat → VNode → VNode → Bool
  | 0, _, _ => false
  | fuel + 1, a, b =>
    a.tag == b.tag && a.text == b.text
    && (let fa := a.attrs.filter (fun kv => kv.1 != "data-dj-id")
        let fb := b.attrs.filter (fun kv => kv.1 != "data-dj-id")
        fa.all (fun kv => attrsGet fb kv.1 == some kv.2)
        && fb.all (fun kv => attrsGet fa kv.1 == some kv.2))
    && a.children.length == b.children.length
    && (a.children.zip b.children).all (fun p => structEqF fuel p.1 p.2)

/-- `fuzz_test.rs::structurally_equal`. -/
def structEq (a b : VNode) : Bool := structEqF (nodeSize a) a b

/-- Shorthand for an element node (as built by `VNode::element` plus the
builder methods used throughout the repository's tests). -/
def el (tag : String) (attrs : List (String × String)) (children : List VNode)
    (key : Option String) (id : Option String) : VNode :=
  ⟨tag, attrs, children, none, key, id⟩

/-- Shorthand for a text node (`VNode::text`). -/
def txt (s : String) : VNode := ⟨"#text", [], [], some s, none, none⟩

/-!
Concrete tree pair refuting the round-trip property: tree `A` has two keyed
children `P` (with keyed grandchildren `c`, `d`) and `Q` (childless); tree
`B` swaps `P` and `Q` and also swaps `c` and `d` inside `P`.  Every node has
a unique key among its siblings and a unique `djust_id`, exactly the shape
the repository's own `round_trip_keyed_mutation` property test generates.
The inner `MoveChild` patches carry path `[1]`, which in the pre-mutation
snapshot resolves to `Q` (childless), so the applier falls back to raw
indices and the two index-based moves of a two-element swap cancel each
other. -/
def rtC : VNode := el "li" [] [txt "C"] (some "c") (some "c0")

def rtD : VNode := el "li" [] [txt "D"] (some "d") (some "d0")

def rtP : VNode := el "div" [] [rtC, rtD] (some "p") (some "p0")

def rtQ : VNode := el "div" [] [] (some "q") (some "q0")

def rtA : VNode := el "div" [] [rtP, rtQ] none (some "r0")

def rtC2 : VNode := el "li" [] [txt "C"] (some "c") (some "c1")

def rtD2 : VNode := el "li" [] [txt "D"] (some "d") (some "d1")

def rtP2 : VNode := el "div" [] [rtD2, rtC2] (some "p") (some "p1")

def rtQ2 : VNode := el "div" [] [] (some "q") (some "q1")

def rtB : VNode := el "div" [] [rtQ2, rtP2] none (some "r1")

/-!
Concrete tree pair on which `apply_patches` panics: as above, but instead
of swapping `c` and `d` inside `P`, tree `B` inserts a fresh keyed child in
front of the one existing keyed child of `P`.  The inner `MoveChild [1] 0 1`
again falls back to raw indices (the snapshot at path `[1]` is the childless
`Q`), its guard `0 < 1 && 1 <= 1` passes, and after `Vec::remove(0)` the
call `Vec::insert(1, ..)` on the now-empty child vector panics. -/
def pnC : VNode := el "li" [] [txt "C"] (some "c") (some "c0")

def pnP : VNode := el "div" [] [pnC] (some "p") (some "p0")

def pnQ : VNode := el "div" [] [] (some "q") (some "q0")

def pnA : VNode := el "div" [] [pnP, pnQ] none (some "r0")

def pnN : VNode := el "li" [] [] (some "z") (some "n1")

def pnC2 : VNode := el "li" [] [txt "C"] (some "c") (some "c1")

def pnP2 : VNode := el "div" [] [pnN, pnC2] (some "p") (some "p1")

def pnQ2 : VNode := el "div" [] [] (some "q") (some "q1")

def pnB : VNode := el "div" [] [pnQ2, pnP2] none (some "r1")

/-- Is the patch a `SetText`? -/
def Patch.isSetText : Patch → Bool
  | .setText _ _ _ => true
  | _ => false

/-- Is the patch a `SetAttr`? -/
def Patch.isSetAttr : Patch → Bool
  | .setAttr _ _ _ _ => true
  | _ => false

/-- Is the patch a `MoveChild`? -/
def Patch.isMoveChild : Patch → Bool
  | .moveChild _ _ _ _ => true
  | _ => false

/-- Is the patch a `SetAttr` or `RemoveAttr` for the given attribute key? -/
def Patch.isAttrPatchFor : Patch → String → Bool
  | .setAttr _ _ k _, key => k == key
  | .removeAttr _ _ k, key => k == key
  | _, _ => false

/-- No child anywhere in the tree carries a `key` (the condition under which
`diff_children` never selects keyed mode at any depth); fuel-indexed. -/
def noKeysBelowF : Nat → VNode → Bool
  | 0, _ => false
  | fuel + 1, n => n.children.all (fun c => c.key.isNone && noKeysBelowF fuel c)

/-- No child list anywhere in the tree contains a keyed child. -/
def noKeysBelow (n : VNode) : Bool := noKeysBelowF (nodeSize n) n

/-- Attribute keys are pairwise distinct (true of any Rust `HashMap`). -/
def nodupAttrKeys : List (String × String) → Bool
  | [] => true
  | kv :: rest => !(attrsHas rest kv.1) && nodupAttrKeys rest

/-- Pairwise distinct strings. -/
def nodupStrs : List String → Bool
  | [] => true
  | s :: rest => !(rest.contains s) && nodupStrs rest

/-- Well-formedness at every node: no `data-djust-replace` marker, distinct
attribute keys (a `HashMap` invariant), and distinct keys among siblings;
fuel-indexed. -/
def wfTreeF : Nat → VNode → Bool
  | 0, _ => false
  | fuel + 1, n =>
    !(attrsHas n.attrs "data-djust-replace")
    && nodupAttrKeys n.attrs
    && nodupStrs (n.children.filterMap (fun c => c.key))
    && n.children.all (fun c => wfTreeF fuel c)

/-- Well-formedness at every node of the tree. -/
def wfTree (n : VNode) : Bool := wfTreeF (nodeSize n) n

/-- Tree with the replace-all marker and one child: `diff(A, A)` is not
empty (it removes and re-inserts the child). -/
def idCexMarker : VNode :=
  el "div" [("data-djust-replace", "")] [el "span" [] [] none (some "1")] none (some "0")

/-- Tree with two siblings sharing the key `k`: `diff(A, A)` is not empty
(the last-wins key map produces a spurious `MoveChild` and a `SetText`). -/
def idCexDupKeys : VNode :=
  el "div" []
    [el "li" [] [txt "A"] (some "k") (some "1"),
     el "li" [] [txt "B"] (some "k") (some "2")] none (some "0")

/-- Concrete keyed-swap scenario: parent with children `[key=a, key=b]`. -/
def swapOld : VNode :=
  el "div" []
    [el "li" [] [txt "A"] (some "a") (some "ia"),
     el "li" [] [txt "B"] (some "b") (some "ib")] none (some "P")

/-- The same parent with the children swapped to `[key=b, key=a]`. -/
def swapNew : VNode :=
  el "div" []
    [el "li" [] [txt "B"] (some "b") (some "ib2"),
     el "li" [] [txt "A"] (some "a") (some "ia2")] none (some "P2")

/-- `t2` agrees with `t` at every node except that the node at `path` has
its `text` field set to `some s`; that node's tag, attributes, children,
key and identity, and every node off the path, are unchanged. -/
def AgreeExceptText : List Nat → String → VNode → VNode → Prop
  | [], s, t, t2 =>
    t2.tag = t.tag ∧ t2.attrs = t.attrs ∧ t2.children = t.children ∧
    t2.key = t.key ∧ t2.djust_id = t.djust_id ∧ t2.text = some s
  | i :: rest, s, t, t2 =>
    t2.tag = t.tag ∧ t2.attrs = t.attrs ∧ t2.text = t.text ∧
    t2.key = t.key ∧ t2.djust_id = t.djust_id ∧
    t2.children.length = t.children.length ∧
    (∀ j, j ≠ i → t2.children.get? j = t.children.get? j) ∧
    ∃ c c2, t.children.get? i = some c ∧ t2.children.get? i = some c2 ∧
      AgreeExceptText rest s c c2

/-- Parser-shaped tree (`data-dj` identity attribute written into the map,
`data-key` copied into `key`): `<div data-key="a">` as parsed with id 0. -/
def pDivKeyA : VNode := el "div" [("data-dj", "0"), ("data-key", "a")] [] (some "a") (some "0")

/-- `<div data-key="b">` as parsed with id 0. -/
def pDivKeyB : VNode := el "div" [("data-dj", "0"), ("data-key", "b")] [] (some "b") (some "0")

/-- `<div><i><b></b></i><span></span></div>` as parsed (ids 0..3). -/
def pIdOld : VNode :=
  el "div" [("data-dj", "0")]
    [el "i" [("data-dj", "1")] [el "b" [("data-dj", "2")] [] none (some "2")] none (some "1"),
     el "span" [("data-dj", "3")] [] none (some "3")] none (some "0")

/-- `<div><i></i><span></span></div>` as parsed (ids 0..2): the `span` now
carries id 2, so its `data-dj` attribute differs from the old tree's. -/
def pIdNew : VNode :=
  el "div" [("data-dj", "0")]
    [el "i" [("data-dj", "1")] [] none (some "1"),
     el "span" [("data-dj", "2")] [] none (some "2")] none (some "0")

/-- C1: the round-trip property `apply(copy(A), diff(A, B)) == B` (modulo
the identity-carrier attribute, the comparison used by the repository's own
`structurally_equal`) fails on the concrete pair `rtA`/`rtB`: the diff is
produced and applied without panicking, yet the patched tree is not
structurally equal to `rtB` — the nested keyed swap is lost because the
`MoveChild` snapshot at path `[1]` is taken on the old tree, where that
path holds a different node. -/
theorem round_trip_fails_on_nested_keyed_swap :
    (applyPatchesP rtA (diffNodes rtA rtB [])).isSome = true ∧
    structEq (applyPatches rtA (diffNodes rtA rtB [])) rtB = false := by
  constructor
  · rfl
  · rfl

/-- C2: `apply_patches` hits a Rust panic (`Vec::insert` with an index past
the end, modelled as `none`) on the structurally valid pair `pnA`/`pnB`,
even though `diff` itself succeeds on it. -/
theorem apply_patches_panics_on_keyed_insert_after_swap :
    (diffNodesF (nodeSize pnA + 1) pnA pnB []).isSome = true ∧
    (applyPatchesP pnA (diffNodes pnA pnB [])).isNone = true := by
  constructor
  · rfl
  · rfl

theorem nodeSize_def (n : VNode) : nodeSize n = 1 + listSize n.children := by
  cases n
  rfl

theorem nodeSize_pos (n : VNode) : 1 ≤ nodeSize n := by
  rw [nodeSize_def]
  exact Nat.le_add_right 1 _

theorem nodeSize_le_listSize {c : VNode} {l : List VNode} (h : c ∈ l) :
    nodeSize c ≤ listSize l := by
  induction l with
  | nil => cases h
  | cons a rest ih =>
    rcases List.mem_cons.mp h with h1 | h2
    · subst h1
      simp only [listSize]
      omega
    · have := ih h2
      simp only [listSize]
      omega

theorem nodeSize_child_lt {c n : VNode} (h : c ∈ n.children) :
    nodeSize c < nodeSize n := by
  have h1 := nodeSize_le_listSize h
  have h2 := nodeSize_def n
  omega

/-- C8: whenever the old and new node have different tags, `diff_nodes`
emits exactly one `Replace` patch targeting the old node's identity and
nothing else (no attribute or children diffing is attempted). -/
theorem tag_mismatch_single_replace (old new : VNode) (path : List Nat)
    (h : old.tag ≠ new.tag) :
    diffNodes old new path = [Patch.replace path old.djust_id new] := by
  unfold diffNodes
  simp only [diffNodesF, h, if_pos, ne_eq, not_false_eq_true, if_true]
  rfl

/-- C8 witness: a `<div>` versus `<span>` pair. -/
theorem tag_mismatch_single_replace_witness :
    diffNodes (el "div" [] [] none (some "0")) (el "span" [] [] none (some "1")) [] =
      [Patch.replace [] (some "0") (el "span" [] [] none (some "1"))] :=
  tag_mismatch_single_replace (el "div" [] [] none (some "0"))
    (el "span" [] [] none (some "1")) [] (by decide)

/-- C6: with the `data-djust-replace` marker on the old or new node,
`diff_children` returns exactly one `RemoveChild` per old child with
indices descending, then one `InsertChild` per new child with indices
ascending — for any child-diff callback `next`, i.e. children are never
diffed node-for-node — and none of these patches is a `SetText` or a
`SetAttr`. -/
theorem replace_all_mode_children (next : VNode → VNode → List Nat → Option (List Patch))
    (old new : VNode) (path : List Nat) (pid : Option String)
    (h : (attrsHas old.attrs "data-djust-replace"
          || attrsHas new.attrs "data-djust-replace") = true) :
    diffChildrenF next old new path pid =
      some (((List.range old.children.length).reverse.map (fun i => Patch.removeChild path pid i))
        ++ (new.children.enum.map (fun p => Patch.insertChild path pid p.1 p.2))) ∧
    ∀ p ∈ replaceAllChildren old new path pid,
      p.isSetText = false ∧ p.isSetAttr = false := by
  constructor
  · unfold diffChildrenF
    rw [h]
    rfl
  · intro p hp
    unfold replaceAllChildren at hp
    rcases List.mem_append.mp hp with h1 | h2
    · rcases List.mem_map.mp h1 with ⟨i, _, rfl⟩
      exact ⟨rfl, rfl⟩
    · rcases List.mem_map.mp h2 with ⟨q, _, rfl⟩
      exact ⟨rfl, rfl⟩

/-- C6 witness: a marked container with three old children and two new
children yields three descending removes then two ascending inserts. -/
theorem replace_all_mode_children_witness :
    diffChildrenF (fun _ _ _ => none)
      (el "div" [("data-djust-replace","")] [txt "x1", txt "x2", txt "x3"] none (some "c"))
      (el "div" [("data-djust-replace","")] [txt "y1", txt "y2"] none (some "c")) [] (some "c") =
      some [Patch.removeChild [] (some "c") 2, Patch.removeChild [] (some "c") 1,
            Patch.removeChild [] (some "c") 0,
            Patch.insertChild [] (some "c") 0 (txt "y1"),
            Patch.insertChild [] (some "c") 1 (txt "y2")] := by
  have h := replace_all_mode_children (fun _ _ _ => none)
    (el "div" [("data-djust-replace","")] [txt "x1", txt "x2", txt "x3"] none (some "c"))
    (el "div" [("data-djust-replace","")] [txt "y1", txt "y2"] none (some "c")) [] (some "c")
    (by decide)
  rw [h.1]
  rfl

theorem listAllCongr {α : Type} {l : List α} {p q : α → Bool}
    (h : ∀ x ∈ l, p x = q x) : l.all p = l.all q := by
  induction l with
  | nil => rfl
  | cons a rest ih =>
    simp only [List.all_cons]
    rw [h a (List.mem_cons_self a rest), ih (fun x hx => h x (List.mem_cons_of_mem a hx))]

theorem noKeysBelowF_mono : ∀ (f g : Nat) (n : VNode), nodeSize n ≤ f → nodeSize n ≤ g →
    noKeysBelowF f n = noKeysBelowF g n := by
  intro f
  induction f with
  | zero =>
    intro g n hf _
    have := nodeSize_pos n
    omega
  | succ f ih =>
    intro g n hf hg
    match g, hg with
    | 0, hg =>
      have := nodeSize_pos n
      omega
    | g + 1, hg =>
      simp only [noKeysBelowF]
      refine listAllCongr (fun c hc => ?_)
      have hlt := nodeSize_child_lt hc
      rw [ih g c (by omega) (by omega)]

theorem noKeysBelow_child {n c : VNode} (h : noKeysBelow n = true) (hc : c ∈ n.children) :
    c.key = none ∧ noKeysBelow c = true := by
  unfold noKeysBelow at h
  have hpos := nodeSize_pos n
  obtain ⟨m, hm⟩ : ∃ m, nodeSize n = m + 1 := ⟨nodeSize n - 1, by omega⟩
  rw [hm] at h
  simp only [noKeysBelowF, List.all_eq_true] at h
  have h2 := h c hc
  rw [Bool.and_eq_true] at h2
  refine ⟨Option.isNone_iff_eq_none.mp h2.1, ?_⟩
  have hlt := nodeSize_child_lt hc
  rw [noKeysBelow, ← noKeysBelowF_mono m (nodeSize c) c (by omega) (by omega)]
  exact h2.2

theorem noKeysBelow_any_false {n : VNode} (h : noKeysBelow n = true) :
    (n.children.any (fun c => c.key.isSome)) = false := by
  rw [Bool.eq_false_iff]
  intro hany
  rw [List.any_eq_true] at hany
  obtain ⟨c, hc, hk⟩ := hany
  have := (noKeysBelow_child h hc).1
  rw [this] at hk
  cases hk

theorem diffAttrs_mem {old new : VNode} {path : List Nat} {d : Option String} {p : Patch}
    (h : p ∈ diffAttrs old new path d) :
    ∃ k, (k == "data-dj-id") = false ∧
      ((∃ v, p = Patch.setAttr path d k v) ∨ p = Patch.removeAttr path d k) := by
  unfold diffAttrs at h
  rcases List.mem_append.mp h with h1 | h1 <;>
    rcases List.mem_filterMap.mp h1 with ⟨kv, hmem, hkv⟩
  · split at hkv
    · cases hkv
    · rename_i hid
      split at hkv
      · cases hkv
        exact ⟨kv.1, Bool.not_eq_true _ ▸ hid, Or.inr rfl⟩
      · rename_i nv hnv
        split at hkv
        · cases hkv
          exact ⟨kv.1, Bool.not_eq_true _ ▸ hid, Or.inl ⟨nv, rfl⟩⟩
        · cases hkv
  · split at hkv
    · cases hkv
    · rename_i hid
      split at hkv
      · cases hkv
      · cases hkv
        exact ⟨kv.1, Bool.not_eq_true _ ▸ hid, Or.inl ⟨kv.2, rfl⟩⟩

theorem replaceAll_mem {old new : VNode} {path : List Nat} {pid : Option String} {p : Patch}
    (h : p ∈ replaceAllChildren old new path pid) :
    (∃ i, p = Patch.removeChild path pid i) ∨ (∃ i n, p = Patch.insertChild path pid i n) := by
  unfold replaceAllChildren at h
  rcases List.mem_append.mp h with h1 | h1
  · rcases List.mem_map.mp h1 with ⟨i, _, rfl⟩
    exact Or.inl ⟨i, rfl⟩
  · rcases List.mem_map.mp h1 with ⟨q, _, rfl⟩
    exact Or.inr ⟨q.1, q.2, rfl⟩

theorem keyRemovals_mem {oldKeys newKeys : List (String × Nat × VNode)} {path : List Nat}
    {pid : Option String} {p : Patch} (h : p ∈ keyRemovals oldKeys newKeys path pid) :
    ∃ i, p = Patch.removeChild path pid i := by
  unfold keyRemovals at h
  rcases List.mem_filterMap.mp h with ⟨e, _, he⟩
  by_cases hin : (lookupLast newKeys e.1).isSome = true
  · rw [if_pos hin] at he
    cases he
  · rw [Bool.not_eq_true] at hin
    rw [if_neg (by rw [hin]; exact Bool.false_ne_true)] at he
    exact ⟨e.2.1, by cases he; rfl⟩

theorem removalScanFrom_mem {newC : List VNode} {po : List Nat} {path : List Nat}
    {pid : Option String} :
    ∀ {l : List VNode} {i : Nat} {p : Patch}, p ∈ removalScanFrom newC po path pid l i →
    ∃ j, p = Patch.removeChild path pid j := by
  intro l
  induction l with
  | nil =>
    intro i p h
    cases h
  | cons n rest ih =>
    intro i p h
    simp only [removalScanFrom] at h
    rcases List.mem_append.mp h with h1 | h2
    · split at h1
      · rcases List.mem_singleton.mp h1 with rfl
        exact ⟨i, rfl⟩
      · cases h1
    · exact ih h2

theorem removalScan_mem {oldC newC : List VNode} {po : List Nat} {path : List Nat}
    {pid : Option String} {p : Patch} (h : p ∈ removalScan oldC newC po path pid) :
    ∃ i, p = Patch.removeChild path pid i :=
  removalScanFrom_mem h

theorem keyedGoF_mem {next : VNode → VNode → List Nat → Option (List Patch)}
    {oldKeys : List (String × Nat × VNode)} {path : List Nat} {pid : Option String} :
    ∀ {rest : List VNode} {i : Nat} {po ps po'},
      keyedGoF next oldKeys path pid rest i po = some (ps, po') → ∀ {p : Patch}, p ∈ ps →
      (∃ j n, p = Patch.insertChild path pid j n) ∨
      (∃ a b, p = Patch.moveChild path pid a b) ∨
      (∃ o n q ps', next o n q = some ps' ∧ p ∈ ps') := by
  intro rest
  induction rest with
  | nil =>
    intro i po ps po' h p hp
    simp only [keyedGoF] at h
    cases h
    cases hp
  | cons n rest ih =>
    intro i po ps po' h p hp
    simp only [keyedGoF] at h
    split at h
    · exact ih h hp
    · rename_i k hk
      split at h
      · rcases Option.map_eq_some'.mp h with ⟨r, hr, hps⟩
        cases hps
        rcases List.mem_cons.mp hp with rfl | hmem
        · exact Or.inl ⟨i, n, rfl⟩
        · exact ih hr hmem
      · rename_i oi onode hlook
        split at h
        · cases h
        · rename_i inner hinner
          rcases Option.map_eq_some'.mp h with ⟨r, hr, hps⟩
          cases hps
          rcases List.mem_append.mp hp with hmv | hrest
          · rcases List.mem_append.mp hmv with hmv1 | hin
            · by_cases hne : oi ≠ i
              · rw [if_pos hne] at hmv1
                rcases List.mem_singleton.mp hmv1 with rfl
                exact Or.inr (Or.inl ⟨oi, i, rfl⟩)
              · rw [if_neg hne] at hmv1
                cases hmv1
            · exact Or.inr (Or.inr ⟨onode, n, path ++ [i], inner, hinner, hin⟩)
          · exact ih hr hrest

theorem unkeyedGoF_mem {next : VNode → VNode → List Nat → Option (List Patch)}
    {oldC : List VNode} {path : List Nat} {pid : Option String} :
    ∀ {rest : List VNode} {i : Nat} {po ps po'},
      unkeyedGoF next oldC path pid rest i po = some (ps, po') → ∀ {p : Patch}, p ∈ ps →
      (∃ j n, p = Patch.insertChild path pid j n) ∨
      (∃ o n q ps', next o n q = some ps' ∧ p ∈ ps') := by
  intro rest
  induction rest with
  | nil =>
    intro i po ps po' h p hp
    simp only [unkeyedGoF] at h
    cases h
    cases hp
  | cons n rest ih =>
    intro i po ps po' h p hp
    simp only [unkeyedGoF] at h
    split at h
    · split at h
      · rename_i o hget
        split at h
        · split at h
          · cases h
          · rename_i inner hinner
            rcases Option.map_eq_some'.mp h with ⟨r, hr, hps⟩
            cases hps
            rcases List.mem_append.mp hp with hin | hrest
            · exact Or.inr ⟨o, n, path ++ [i], inner, hinner, hin⟩
            · exact ih hr hrest
        · rcases Option.map_eq_some'.mp h with ⟨r, hr, hps⟩
          cases hps
          rcases List.mem_cons.mp hp with rfl | hmem
          · exact Or.inl ⟨i, n, rfl⟩
          · exact ih hr hmem
      · rcases Option.map_eq_some'.mp h with ⟨r, hr, hps⟩
        cases hps
        rcases List.mem_cons.mp hp with rfl | hmem
        · exact Or.inl ⟨i, n, rfl⟩
        · exact ih hr hmem
    · exact ih h hp

theorem indexedGoF_mem {next : VNode → VNode → List Nat → Option (List Patch)}
    {path : List Nat} :
    ∀ {os ns : List VNode} {i : Nat} {ps},
      indexedGoF next path os ns i = some ps → ∀ {p : Patch}, p ∈ ps →
      ∃ o n q ps', o ∈ os ∧ n ∈ ns ∧ next o n q = some ps' ∧ p ∈ ps' := by
  intro os
  induction os with
  | nil =>
    intro ns i ps h p hp
    simp only [indexedGoF] at h
    cases h
    cases hp
  | cons o os ih =>
    intro ns i ps h p hp
    match ns with
    | [] =>
      simp only [indexedGoF] at h
      cases h
      cases hp
    | n :: ns =>
      simp only [indexedGoF] at h
      split at h
      · cases h
      · rename_i ps0 hnext
        rcases Option.map_eq_some'.mp h with ⟨rest, hrest, hps⟩
        cases hps
        rcases List.mem_append.mp hp with hin | hmem
        · exact ⟨o, n, path ++ [i], ps0, List.mem_cons_self o os, List.mem_cons_self n ns,
            hnext, hin⟩
        · rcases ih hrest hmem with ⟨o2, n2, q2, ps2, ho2, hn2, hnx2, hp2⟩
          exact ⟨o2, n2, q2, ps2, List.mem_cons_of_mem o ho2, List.mem_cons_of_mem n hn2,
            hnx2, hp2⟩

theorem diffKeyedChildrenF_mem {next : VNode → VNode → List Nat → Option (List Patch)}
    {oldC newC : List VNode} {path : List Nat} {pid : Option String} {cps : List Patch}
    (h : diffKeyedChildrenF next oldC newC path pid = some cps) {p : Patch} (hp : p ∈ cps) :
    (∃ i, p = Patch.removeChild path pid i) ∨
    (∃ i n, p = Patch.insertChild path pid i n) ∨
    (∃ a b, p = Patch.moveChild path pid a b) ∨
    (∃ o n q ps', next o n q = some ps' ∧ p ∈ ps') := by
  unfold diffKeyedChildrenF at h
  dsimp only at h
  split at h
  · cases h
  · rename_i r1 kps po1 hkeyed
    split at h
    · cases h
    · rename_i r2 ups po2 hunkeyed
      cases h
      rcases List.mem_append.mp hp with h1 | hscan
      · rcases List.mem_append.mp h1 with h2 | hups
        · rcases List.mem_append.mp h2 with hrem | hkps
          · rcases keyRemovals_mem hrem with ⟨i, rfl⟩
            exact Or.inl ⟨i, rfl⟩
          · rcases keyedGoF_mem hkeyed hkps with ⟨j, n, rfl⟩ | ⟨a, b, rfl⟩ | hnext
            · exact Or.inr (Or.inl ⟨j, n, rfl⟩)
            · exact Or.inr (Or.inr (Or.inl ⟨a, b, rfl⟩))
            · exact Or.inr (Or.inr (Or.inr hnext))
        · rcases unkeyedGoF_mem hunkeyed hups with ⟨j, n, rfl⟩ | hnext
          · exact Or.inr (Or.inl ⟨j, n, rfl⟩)
          · exact Or.inr (Or.inr (Or.inr hnext))
      · rcases removalScan_mem hscan with ⟨i, rfl⟩
        exact Or.inl ⟨i, rfl⟩

theorem diffIndexedChildrenF_mem {next : VNode → VNode → List Nat → Option (List Patch)}
    {oldC newC : List VNode} {path : List Nat} {pid : Option String} {cps : List Patch}
    (h : diffIndexedChildrenF next oldC newC path pid = some cps) {p : Patch} (hp : p ∈ cps) :
    (∃ i, p = Patch.removeChild path pid i) ∨
    (∃ i n, p = Patch.insertChild path pid i n) ∨
    (∃ o n q ps', o ∈ oldC ∧ n ∈ newC ∧ next o n q = some ps' ∧ p ∈ ps') := by
  unfold diffIndexedChildrenF at h
  rcases Option.map_eq_some'.mp h with ⟨pairs, hpairs, hcps⟩
  cases hcps
  rcases List.mem_append.mp hp with h1 | hins
  · rcases List.mem_append.mp h1 with hpair | hrem
    · exact Or.inr (Or.inr (indexedGoF_mem hpairs hpair))
    · split at hrem
      · rcases List.mem_map.mp hrem with ⟨i, _, rfl⟩
        exact Or.inl ⟨i, rfl⟩
      · cases hrem
  · split at hins
    · rcases List.mem_map.mp hins with ⟨q, _, rfl⟩
      exact Or.inr (Or.inl ⟨q.1, q.2, rfl⟩)
    · cases hins

theorem diffNodesF_no_id_attr : ∀ (fuel : Nat) {old new : VNode} {path : List Nat}
    {ps : List Patch}, diffNodesF fuel old new path = some ps → ∀ {p : Patch}, p ∈ ps →
    p.isAttrPatchFor "data-dj-id" = false := by
  intro fuel
  induction fuel with
  | zero =>
    intro old new path ps h
    cases h
  | succ fuel ih =>
    intro old new path ps h p hp
    simp only [diffNodesF] at h
    split at h
    · cases h
      rcases List.mem_singleton.mp hp with rfl
      rfl
    · split at h
      · split at h
        · split at h
          · cases h
            rcases List.mem_singleton.mp hp with rfl
            rfl
          · cases h
            cases hp
        · cases h
          cases hp
      · rcases Option.map_eq_some'.mp h with ⟨cps, hcps, hps⟩
        cases hps
        rcases List.mem_append.mp hp with hattr | hch
        · rcases diffAttrs_mem hattr with ⟨k, hk, ⟨v, rfl⟩ | rfl⟩
          · simpa [Patch.isAttrPatchFor] using hk
          · simpa [Patch.isAttrPatchFor] using hk
        · unfold diffChildrenF at hcps
          split at hcps
          · cases hcps
            rcases replaceAll_mem hch with ⟨i, rfl⟩ | ⟨i, n, rfl⟩ <;> rfl
          · split at hcps
            · rcases diffKeyedChildrenF_mem hcps hch with
                ⟨i, rfl⟩ | ⟨i, n, rfl⟩ | ⟨a, b, rfl⟩ | ⟨o, n, q, ps', hnext, hmem⟩
              · rfl
              · rfl
              · rfl
              · exact ih hnext hmem
            · rcases diffIndexedChildrenF_mem hcps hch with
                ⟨i, rfl⟩ | ⟨i, n, rfl⟩ | ⟨o, n, q, ps', _, _, hnext, hmem⟩
              · rfl
              · rfl
              · exact ih hnext hmem

/-- C4 amended: the attribute exclusion of `diff_attrs` is exactly the key
`data-dj-id` — no patch produced by `diff_nodes` is ever a `SetAttr` or
`RemoveAttr` for `data-dj-id`.  (The parser's identity attribute `data-dj`
and the key-carrier `data-key` are diffed as ordinary attributes.) -/
theorem diff_never_patches_data_dj_id (old new : VNode) (path : List Nat) :
    ∀ p ∈ diffNodes old new path, p.isAttrPatchFor "data-dj-id" = false := by
  intro p hp
  unfold diffNodes at hp
  match hd : diffNodesF (nodeSize old + 1) old new path with
  | none =>
    rw [hd] at hp
    cases hp
  | some ps =>
    rw [hd] at hp
    exact diffNodesF_no_id_attr _ hd hp

/-- C4 amended witness: a changed `class` attribute generates a patch, and
that patch is not for `data-dj-id`. -/
theorem diff_never_patches_data_dj_id_witness :
    (Patch.setAttr [] (some "0") "class" "b").isAttrPatchFor "data-dj-id" = false :=
  diff_never_patches_data_dj_id
    (el "div" [("class", "a")] [] none (some "0"))
    (el "div" [("class", "b")] [] none (some "0")) []
    (Patch.setAttr [] (some "0") "class" "b")
    (by
      rw [show diffNodes (el "div" [("class", "a")] [] none (some "0"))
            (el "div" [("class", "b")] [] none (some "0")) [] =
          [Patch.setAttr [] (some "0") "class" "b"] from rfl]
      exact List.mem_singleton.mpr rfl)

theorem diffNodesF_no_moves : ∀ (fuel : Nat) {old new : VNode} {path : List Nat}
    {ps : List Patch}, noKeysBelow new = true →
    diffNodesF fuel old new path = some ps → ∀ {p : Patch}, p ∈ ps →
    p.isMoveChild = false := by
  intro fuel
  induction fuel with
  | zero =>
    intro old new path ps _ h
    cases h
  | succ fuel ih =>
    intro old new path ps hnk h p hp
    simp only [diffNodesF] at h
    split at h
    · cases h
      rcases List.mem_singleton.mp hp with rfl
      rfl
    · split at h
      · split at h
        · split at h
          · cases h
            rcases List.mem_singleton.mp hp with rfl
            rfl
          · cases h
            cases hp
        · cases h
          cases hp
      · rcases Option.map_eq_some'.mp h with ⟨cps, hcps, hps⟩
        cases hps
        rcases List.mem_append.mp hp with hattr | hch
        · rcases diffAttrs_mem hattr with ⟨k, _, ⟨v, rfl⟩ | rfl⟩ <;> rfl
        · unfold diffChildrenF at hcps
          split at hcps
          · cases hcps
            rcases replaceAll_mem hch with ⟨i, rfl⟩ | ⟨i, n, rfl⟩ <;> rfl
          · split at hcps
            · rename_i hany
              rw [noKeysBelow_any_false hnk] at hany
              cases hany
            · rcases diffIndexedChildrenF_mem hcps hch with
                ⟨i, rfl⟩ | ⟨i, n, rfl⟩ | ⟨o, n, q, ps', _, hn, hnext, hmem⟩
              · rfl
              · rfl
              · exact ih (noKeysBelow_child hnk hn).2 hnext hmem

/-- C9: when no child list anywhere in the new tree contains a keyed child,
`diff_nodes` never emits a `MoveChild` patch — indexed mode and replace-all
mode produce no moves at any depth. -/
theorem no_move_patches_without_keys (old new : VNode) (path : List Nat)
    (h : noKeysBelow new = true) :
    ∀ p ∈ diffNodes old new path, p.isMoveChild = false := by
  intro p hp
  unfold diffNodes at hp
  match hd : diffNodesF (nodeSize old + 1) old new path with
  | none =>
    rw [hd] at hp
    cases hp
  | some ps =>
    rw [hd] at hp
    exact diffNodesF_no_moves _ h hd hp

/-- C9 witness: a keyless text change yields a patch, and it is not a move. -/
theorem no_move_patches_without_keys_witness :
    noKeysBelow (el "div" [] [txt "b"] none (some "0")) = true ∧
    (Patch.setText [0] none "b").isMoveChild = false :=
  ⟨by decide,
   no_move_patches_without_keys
    (el "div" [] [txt "a"] none (some "0"))
    (el "div" [] [txt "b"] none (some "0")) []
    (by decide)
    (Patch.setText [0] none "b")
    (by
      rw [show diffNodes (el "div" [] [txt "a"] none (some "0"))
            (el "div" [] [txt "b"] none (some "0")) [] =
          [Patch.setText [0] none "b"] from rfl]
      exact List.mem_singleton.mpr rfl)⟩

theorem wfTreeF_mono : ∀ (f g : Nat) (n : VNode), nodeSize n ≤ f → nodeSize n ≤ g →
    wfTreeF f n = wfTreeF g n := by
  intro f
  induction f with
  | zero =>
    intro g n hf _
    have := nodeSize_pos n
    omega
  | succ f ih =>
    intro g n hf hg
    match g, hg with
    | 0, hg =>
      have := nodeSize_pos n
      omega
    | g + 1, hg =>
      simp only [wfTreeF]
      have hall : n.children.all (fun c => wfTreeF f c)
          = n.children.all (fun c => wfTreeF g c) := by
        refine listAllCongr (fun c hc => ?_)
        have hlt := nodeSize_child_lt hc
        exact ih g c (by omega) (by omega)
      rw [hall]

theorem wfTree_parts {n : VNode} (h : wfTree n = true) :
    attrsHas n.attrs "data-djust-replace" = false
    ∧ nodupAttrKeys n.attrs = true
    ∧ nodupStrs (n.children.filterMap (fun c => c.key)) = true
    ∧ ∀ c ∈ n.children, wfTree c = true := by
  unfold wfTree at h
  have hpos := nodeSize_pos n
  obtain ⟨m, hm⟩ : ∃ m, nodeSize n = m + 1 := ⟨nodeSize n - 1, by omega⟩
  rw [hm] at h
  simp only [wfTreeF, Bool.and_eq_true, Bool.not_eq_true', List.all_eq_true] at h
  refine ⟨h.1.1.1, h.1.1.2, h.1.2, fun c hc => ?_⟩
  have hlt := nodeSize_child_lt hc
  rw [wfTree, ← wfTreeF_mono m (nodeSize c) c (by omega) (by omega)]
  exact h.2 c hc

theorem attrsHas_of_mem {m : List (String × String)} {kv : String × String}
    (h : kv ∈ m) : attrsHas m kv.1 = true := by
  induction m with
  | nil => cases h
  | cons a rest ih =>
    rcases List.mem_cons.mp h with rfl | h2
    · simp [attrsHas, attrsGet]
    · unfold attrsHas attrsGet
      by_cases he : (a.1 == kv.1) = true
      · rw [if_pos he]
        rfl
      · rw [if_neg he]
        exact ih h2

theorem attrsGet_self_of_nodup {m : List (String × String)} {kv : String × String}
    (hnd : nodupAttrKeys m = true) (h : kv ∈ m) : attrsGet m kv.1 = some kv.2 := by
  induction m with
  | nil => cases h
  | cons a rest ih =>
    simp only [nodupAttrKeys, Bool.and_eq_true, Bool.not_eq_true'] at hnd
    rcases List.mem_cons.mp h with rfl | h2
    · simp [attrsGet]
    · unfold attrsGet
      by_cases he : (a.1 == kv.1) = true
      · exfalso
        have hk := attrsHas_of_mem h2
        rw [eq_of_beq he] at hnd
        rw [hnd.1] at hk
        cases hk
      · rw [if_neg he]
        exact ih hnd.2 h2

theorem diffAttrs_self {A : VNode} (hnd : nodupAttrKeys A.attrs = true)
    (path : List Nat) (d : Option String) : diffAttrs A A path d = [] := by
  unfold diffAttrs
  rw [List.append_eq_nil]
  constructor
  · rw [List.filterMap_eq_nil]
    intro kv hkv
    by_cases hid : (kv.1 == "data-dj-id") = true
    · rw [if_pos hid]
    · rw [if_neg hid, attrsGet_self_of_nodup hnd hkv]
      simp
  · rw [List.filterMap_eq_nil]
    intro kv hkv
    by_cases hid : (kv.1 == "data-dj-id") = true
    · rw [if_pos hid]
    · rw [if_neg hid, if_pos (attrsHas_of_mem hkv)]

theorem lookupLast_mem : ∀ {m : List (String × Nat × VNode)} {k : String} {v : Nat × VNode},
    lookupLast m k = some v → (k, v) ∈ m := by
  intro m
  induction m with
  | nil =>
    intro k v h
    cases h
  | cons e rest ih =>
    intro k v h
    simp only [lookupLast] at h
    split at h
    · rename_i v' hv'
      cases h
      exact List.mem_cons_of_mem e (ih hv')
    · split at h
      · rename_i he
        cases h
        have hk : e.1 = k := eq_of_beq he
        have hke : (k, e.2) = e := Prod.ext hk.symm rfl
        rw [hke]
        exact List.mem_cons_self e rest
      · cases h

theorem lookupLast_isSome_of_mem : ∀ {m : List (String × Nat × VNode)} {k : String}
    {v : Nat × VNode}, (k, v) ∈ m → (lookupLast m k).isSome = true := by
  intro m
  induction m with
  | nil =>
    intro k v h
    cases h
  | cons e rest ih =>
    intro k v h
    rcases List.mem_cons.mp h with rfl | h2
    · simp only [lookupLast]
      rcases hrec : lookupLast rest k with _ | v2
      · simp
      · rfl
    · simp only [lookupLast]
      rcases hrec : lookupLast rest k with _ | v2
      · exfalso
        have hh := ih h2
        rw [hrec] at hh
        cases hh
      · rfl

theorem dedupLast_subset : ∀ {m : List (String × Nat × VNode)} {e : String × Nat × VNode},
    e ∈ dedupLast m → e ∈ m := by
  intro m
  induction m with
  | nil =>
    intro e h
    cases h
  | cons a rest ih =>
    intro e h
    simp only [dedupLast] at h
    split at h
    · exact List.mem_cons_of_mem a (ih h)
    · rcases List.mem_cons.mp h with h1 | h2
      · rw [h1]
        exact List.mem_cons_self _ _
      · exact List.mem_cons_of_mem a (ih h2)

theorem keyRemovals_self (m : List (String × Nat × VNode)) (path : List Nat)
    (pid : Option String) : keyRemovals m m path pid = [] := by
  unfold keyRemovals
  rw [List.filterMap_eq_nil]
  intro e he
  have hmem := dedupLast_subset he
  have hm2 : (e.1, e.2) ∈ m := by
    cases e
    exact hmem
  rw [if_pos (lookupLast_isSome_of_mem hm2)]

theorem keysMapFrom_mem : ∀ {l : List VNode} {b : Nat} {k : String} {i : Nat} {x : VNode},
    (k, i, x) ∈ keysMapFrom l b → ∃ j, i = b + j ∧ l.get? j = some x ∧ x.key = some k := by
  intro l
  induction l with
  | nil =>
    intro b k i x h
    cases h
  | cons n rest ih =>
    intro b k i x h
    simp only [keysMapFrom] at h
    rcases List.mem_append.mp h with h1 | h2
    · match hk : n.key with
      | some k0 =>
        rw [hk] at h1
        rcases List.mem_singleton.mp h1 with heq
        cases heq
        exact ⟨0, by omega, rfl, hk⟩
      | none =>
        rw [hk] at h1
        cases h1
    · rcases ih h2 with ⟨j, hj, hget, hkey⟩
      exact ⟨j + 1, by omega, hget, hkey⟩

theorem lookupLast_keysMap_get {l : List VNode} {k : String} {i : Nat} {x : VNode}
    (h : lookupLast (keysMapN l) k = some (i, x)) :
    l.get? i = some x ∧ x.key = some k := by
  rcases keysMapFrom_mem (lookupLast_mem h) with ⟨j, hj, hget, hkey⟩
  have hij : i = j := by omega
  rw [hij]
  exact ⟨hget, hkey⟩

theorem lookupLast_append (xs ys : List (String × Nat × VNode)) (k : String) :
    lookupLast (xs ++ ys) k =
      match lookupLast ys k with
      | some v => some v
      | none => lookupLast xs k := by
  induction xs with
  | nil =>
    rcases h : lookupLast ys k with _ | v
    · rw [List.nil_append, h]
      rfl
    · rw [List.nil_append, h]
  | cons e rest ih =>
    rw [List.cons_append]
    simp only [lookupLast]
    rw [ih]
    rcases h : lookupLast ys k with _ | v
    · rfl
    · rfl

theorem keysMapFrom_lookup_none : ∀ {l : List VNode} {b : Nat} {k : String},
    (l.filterMap (fun c => c.key)).contains k = false →
    lookupLast (keysMapFrom l b) k = none := by
  intro l
  induction l with
  | nil =>
    intro b k _
    rfl
  | cons n rest ih =>
    intro b k hc
    simp only [keysMapFrom]
    match hk : n.key with
    | none =>
      rw [List.filterMap_cons, hk] at hc
      rw [List.nil_append]
      exact ih hc
    | some k0 =>
      rw [List.filterMap_cons, hk, List.contains_cons, Bool.or_eq_false_iff] at hc
      have hne : (k0 == k) = false :=
        beq_eq_false_iff_ne.mpr (Ne.symm (beq_eq_false_iff_ne.mp hc.1))
      rw [List.singleton_append]
      simp only [lookupLast]
      rw [ih hc.2, hne]
      rfl

theorem lookupLast_self_of_nodup : ∀ {l : List VNode} {b j : Nat} {n : VNode} {k : String},
    nodupStrs (l.filterMap (fun c => c.key)) = true →
    l.get? j = some n → n.key = some k →
    lookupLast (keysMapFrom l b) k = some (b + j, n) := by
  intro l
  induction l with
  | nil =>
    intro b j n k _ hget _
    cases hget
  | cons c rest ih =>
    intro b j n k hnd hget hkey
    simp only [keysMapFrom]
    match j, hget with
    | 0, hget =>
      cases hget
      rw [hkey]
      rw [List.filterMap_cons, hkey] at hnd
      simp only [nodupStrs, Bool.and_eq_true, Bool.not_eq_true'] at hnd
      rw [List.singleton_append]
      simp only [lookupLast]
      rw [keysMapFrom_lookup_none hnd.1]
      simp [lookupLast]
    | j + 1, hget =>
      have hnd2 : nodupStrs (rest.filterMap (fun c => c.key)) = true := by
        rw [List.filterMap_cons] at hnd
        match hck : c.key with
        | none =>
          rw [hck] at hnd
          exact hnd
        | some k0 =>
          rw [hck] at hnd
          simp only [nodupStrs, Bool.and_eq_true] at hnd
          exact hnd.2
      have hrec := @ih (b + 1) j n k hnd2 hget hkey
      match hck : c.key with
      | none =>
        rw [List.nil_append, hrec]
        congr 2
        omega
      | some k0 =>
        rw [List.singleton_append]
        simp only [lookupLast]
        rw [hrec]
        have : b + 1 + j = b + (j + 1) := by omega
        rw [this]

theorem mem_of_get? {l : List VNode} {i : Nat} {a : VNode} (h : l.get? i = some a) :
    a ∈ l := by
  induction l generalizing i with
  | nil => cases h
  | cons b rest ih =>
    match i, h with
    | 0, h =>
      cases h
      exact List.mem_cons_self _ _
    | i + 1, h =>
      exact List.mem_cons_of_mem b (ih h)

theorem keyedGoF_self {next : VNode → VNode → List Nat → Option (List Patch)}
    {cs : List VNode} {path : List Nat} {pid : Option String}
    (hnd : nodupStrs (cs.filterMap (fun c => c.key)) = true)
    (hnext : ∀ n ∈ cs, ∀ q, next n n q = some []) :
    ∀ (rest : List VNode) (i : Nat) (po : List Nat),
      (∀ j m, rest.get? j = some m → cs.get? (i + j) = some m) →
      (∀ x ∈ po, ∃ n, cs.get? x = some n ∧ n.key.isSome = true) →
      ∃ po', keyedGoF next (keysMapN cs) path pid rest i po = some ([], po') ∧
        ∀ x ∈ po', ∃ n, cs.get? x = some n ∧ n.key.isSome = true := by
  intro rest
  induction rest with
  | nil =>
    intro i po _ hpo
    exact ⟨po, rfl, hpo⟩
  | cons n rest ih =>
    intro i po hsub hpo
    have hn : cs.get? i = some n := by
      have := hsub 0 n rfl
      simpa using this
    have hsub2 : ∀ j m, rest.get? j = some m → cs.get? (i + 1 + j) = some m := by
      intro j m hj
      have := hsub (j + 1) m hj
      have he : i + (j + 1) = i + 1 + j := by omega
      rw [he] at this
      exact this
    rcases hk : n.key with _ | k
    · simp only [keyedGoF, hk]
      exact ih (i + 1) po hsub2 hpo
    · have hlook : lookupLast (keysMapN cs) k = some (i, n) := by
        have := @lookupLast_self_of_nodup cs 0 i n k hnd hn hk
        simpa using this
      have hnx := hnext n (mem_of_get? hn) (path ++ [i])
      have hpo2 : ∀ x ∈ po ++ [i], ∃ m, cs.get? x = some m ∧ m.key.isSome = true := by
        intro x hx
        rcases List.mem_append.mp hx with hx1 | hx2
        · exact hpo x hx1
        · rcases List.mem_singleton.mp hx2 with rfl
          exact ⟨n, hn, by rw [hk]; rfl⟩
      rcases ih (i + 1) (po ++ [i]) hsub2 hpo2 with ⟨po', heq, hpo'⟩
      refine ⟨po', ?_, hpo'⟩
      simp only [keyedGoF, hk, hlook, hnx, heq, Option.map_some']
      simp

theorem unkeyedGoF_self {next : VNode → VNode → List Nat → Option (List Patch)}
    {cs : List VNode} {path : List Nat} {pid : Option String}
    (hnext : ∀ n ∈ cs, ∀ q, next n n q = some []) :
    ∀ (rest : List VNode) (i : Nat) (po : List Nat),
      (∀ j m, rest.get? j = some m → cs.get? (i + j) = some m) →
      (∀ x ∈ po, (∃ n, cs.get? x = some n ∧ n.key.isSome = true) ∨ x < i) →
      ∃ po', unkeyedGoF next cs path pid rest i po = some ([], po') := by
  intro rest
  induction rest with
  | nil =>
    intro i po _ _
    exact ⟨po, rfl⟩
  | cons n rest ih =>
    intro i po hsub hpo
    have hn : cs.get? i = some n := by
      have := hsub 0 n rfl
      simpa using this
    have hsub2 : ∀ j m, rest.get? j = some m → cs.get? (i + 1 + j) = some m := by
      intro j m hj
      have := hsub (j + 1) m hj
      have he : i + (j + 1) = i + 1 + j := by omega
      rw [he] at this
      exact this
    by_cases hk : n.key.isNone = true
    · have hcon : po.contains i = false := by
        rw [Bool.eq_false_iff]
        intro hcon
        rcases hpo i (List.elem_iff.mp hcon) with ⟨m, hm, hms⟩ | hlt
        · rw [hn] at hm
          cases hm
          rw [Option.isNone_iff_eq_none.mp hk] at hms
          cases hms
        · omega
      have hnx := hnext n (mem_of_get? hn) (path ++ [i])
      have hpo2 : ∀ x ∈ po ++ [i],
          (∃ m, cs.get? x = some m ∧ m.key.isSome = true) ∨ x < i + 1 := by
        intro x hx
        rcases List.mem_append.mp hx with hx1 | hx2
        · rcases hpo x hx1 with hkx | hlt
          · exact Or.inl hkx
          · exact Or.inr (by omega)
        · rcases List.mem_singleton.mp hx2 with rfl
          exact Or.inr (by omega)
      rcases ih (i + 1) (po ++ [i]) hsub2 hpo2 with ⟨po', heq⟩
      refine ⟨po', ?_⟩
      simp only [unkeyedGoF, hk, hn, hcon, hnx, heq, Bool.and_true, Bool.and_self,
        Bool.not_false, if_true, Option.map_some']
      rfl
    · have hpo2 : ∀ x ∈ po, (∃ m, cs.get? x = some m ∧ m.key.isSome = true) ∨ x < i + 1 := by
        intro x hx
        rcases hpo x hx with hkx | hlt
        · exact Or.inl hkx
        · exact Or.inr (by omega)
      rcases ih (i + 1) po hsub2 hpo2 with ⟨po', heq⟩
      refine ⟨po', ?_⟩
      rw [Bool.not_eq_true] at hk
      simp only [unkeyedGoF, hk, Bool.false_eq_true, if_false]
      exact heq

theorem removalScanFrom_self {newC : List VNode} {po : List Nat} {path : List Nat}
    {pid : Option String} :
    ∀ (l : List VNode) (i : Nat),
      (∀ j m, l.get? j = some m → newC.get? (i + j) = some m) →
      removalScanFrom newC po path pid l i = [] := by
  intro l
  induction l with
  | nil =>
    intro i _
    rfl
  | cons n rest ih =>
    intro i hsub
    have hn : newC.get? i = some n := by
      have := hsub 0 n rfl
      simpa using this
    have hsub2 : ∀ j m, rest.get? j = some m → newC.get? (i + 1 + j) = some m := by
      intro j m hj
      have := hsub (j + 1) m hj
      have he : i + (j + 1) = i + 1 + j := by omega
      rw [he] at this
      exact this
    simp only [removalScanFrom]
    rw [hn, ih (i + 1) hsub2]
    match hk : n.key with
    | none => simp [hk]
    | some k0 => simp [hk]

theorem indexedGoF_self {next : VNode → VNode → List Nat → Option (List Patch)}
    {path : List Nat} :
    ∀ (l : List VNode) (i : Nat), (∀ n ∈ l, ∀ q, next n n q = some []) →
      indexedGoF next path l l i = some [] := by
  intro l
  induction l with
  | nil =>
    intro i _
    rfl
  | cons n rest ih =>
    intro i hnext
    simp only [indexedGoF]
    rw [hnext n (List.mem_cons_self _ _) (path ++ [i])]
    rw [ih (i + 1) (fun m hm q => hnext m (List.mem_cons_of_mem n hm) q)]
    rfl

theorem diffChildrenF_self {next : VNode → VNode → List Nat → Option (List Patch)}
    {A : VNode} {path : List Nat} {pid : Option String}
    (hmk : attrsHas A.attrs "data-djust-replace" = false)
    (hndk : nodupStrs (A.children.filterMap (fun c => c.key)) = true)
    (hnext : ∀ n ∈ A.children, ∀ q, next n n q = some []) :
    diffChildrenF next A A path pid = some [] := by
  unfold diffChildrenF
  rw [hmk]
  rw [if_neg (by rw [Bool.or_self]; exact Bool.false_ne_true)]
  by_cases hk : A.children.any (fun n => n.key.isSome) = true
  · rw [if_pos hk]
    rcases @keyedGoF_self next A.children path pid hndk hnext
        A.children 0 []
        (fun j m hj => by simpa using hj)
        (fun x hx => by cases hx) with ⟨po1, heq1, hpo1⟩
    rcases @unkeyedGoF_self next A.children path pid hnext
        A.children 0 po1
        (fun j m hj => by simpa using hj)
        (fun x hx => Or.inl (hpo1 x hx)) with ⟨po2, heq2⟩
    have hscan : removalScan A.children A.children po2 path pid = [] :=
      removalScanFrom_self A.children 0 (fun j m hj => by simpa using hj)
    simp only [diffKeyedChildrenF, heq1, heq2, keyRemovals_self, hscan]
    rfl
  · rw [if_neg hk]
    unfold diffIndexedChildrenF
    rw [indexedGoF_self A.children 0 hnext]
    simp

theorem diffNodesF_self : ∀ (fuel : Nat) (A : VNode) (path : List Nat),
    wfTree A = true → nodeSize A < fuel → diffNodesF fuel A A path = some [] := by
  intro fuel
  induction fuel with
  | zero =>
    intro A path _ h
    omega
  | succ fuel ih =>
    intro A path hwf hsz
    obtain ⟨hmk, hnda, hndk, hch⟩ := wfTree_parts hwf
    simp only [diffNodesF]
    rw [if_neg (fun h => h rfl)]
    by_cases ht : A.is_text = true
    · rw [if_pos ht, if_neg (fun h => h rfl)]
    · rw [if_neg ht]
      have hnexts : ∀ n ∈ A.children, ∀ q, diffNodesF fuel n n q = some [] := by
        intro n hn q
        have hlt := nodeSize_child_lt hn
        exact ih n q (hch n hn) (by omega)
      rw [diffChildrenF_self hmk hndk hnexts]
      rw [diffAttrs_self hnda path A.djust_id]
      rfl

/-- C3 amended: `diff(A, A)` is the empty patch list for every tree `A` in
which no node carries the `data-djust-replace` marker and no two siblings
share a key (and attribute maps have distinct keys, as any `HashMap` does).
With the marker, `replace_all_children` emits removals and insertions even
for identical trees; with duplicated sibling keys, the last-wins key map
makes the keyed pass emit a spurious move. -/
theorem diff_identity_on_wf (A : VNode) (path : List Nat) (h : wfTree A = true) :
    diffNodes A A path = [] := by
  unfold diffNodes
  rw [diffNodesF_self (nodeSize A + 1) A path h (by omega)]
  rfl

/-- C3 amended witness: a keyed list diffed against itself. -/
theorem diff_identity_on_wf_witness :
    diffNodes (el "ul" [("class", "c")]
      [el "li" [] [txt "A"] (some "a") (some "1"),
       el "li" [] [txt "B"] (some "b") (some "2")] none (some "0"))
      (el "ul" [("class", "c")]
      [el "li" [] [txt "A"] (some "a") (some "1"),
       el "li" [] [txt "B"] (some "b") (some "2")] none (some "0")) [] = [] :=
  diff_identity_on_wf _ [] (by decide)

/-- C3 counterexample: the identity law `diff(A, A) = []` fails as stated —
on a tree carrying the replace-all marker, and also on a tree with
duplicated sibling keys. -/
theorem diff_identity_fails :
    diffNodes idCexMarker idCexMarker [] ≠ [] ∧
    diffNodes idCexDupKeys idCexDupKeys [] ≠ [] := by
  constructor
  · intro h
    have h2 := congrArg List.length h
    rw [show (diffNodes idCexMarker idCexMarker []).length = 2 from rfl] at h2
    cases h2
  · intro h
    have h2 := congrArg List.length h
    rw [show (diffNodes idCexDupKeys idCexDupKeys []).length = 2 from rfl] at h2
    cases h2

/-- C5 counterexample: on the keyed swap `[key=a, key=b]` to
`[key=b, key=a]` with unchanged leaf content, diff emits two `MoveChild`
patches, not exactly one as claimed. -/
theorem keyed_swap_not_single_move :
    ((diffNodes swapOld swapNew []).filter (fun p => p.isMoveChild)).length = 2 := by
  rfl

/-- C5 amended: for any two well-formed keyed children `ca` (key `ka`) and
`cb` (key `kb`) with distinct keys and distinct identities, diffing the
parent `[ca, cb]` against `[cb, ca]` yields exactly the two `MoveChild`
patches `(1, 0)` and `(0, 1)` — in particular no `Replace` and no `SetText`
— and applying the resulting patch list to the old parent recovers the
reordered child list `[cb, ca]`. -/
theorem keyed_swap_two_moves (ca cb : VNode) (ka kb ia ib : String)
    (hka : ca.key = some ka) (hkb : cb.key = some kb) (hkne : ka ≠ kb)
    (hia : ca.djust_id = some ia) (hib : cb.djust_id = some ib) (hine : ia ≠ ib)
    (hwa : wfTree ca = true) (hwb : wfTree cb = true) :
    diffNodes (el "div" [] [ca, cb] none (some "P"))
        (el "div" [] [cb, ca] none (some "P2")) [] =
      [Patch.moveChild [] (some "P") 1 0, Patch.moveChild [] (some "P") 0 1] ∧
    (applyPatches (el "div" [] [ca, cb] none (some "P"))
        [Patch.moveChild [] (some "P") 1 0, Patch.moveChild [] (some "P") 0 1]).children =
      [cb, ca] := by
  have hkab : (ka == kb) = false := beq_eq_false_iff_ne.mpr hkne
  have hkba : (kb == ka) = false := beq_eq_false_iff_ne.mpr (Ne.symm hkne)
  have hP : nodeSize (el "div" [] [ca, cb] none (some "P"))
      = 1 + (nodeSize ca + (nodeSize cb + 0)) := rfl
  have hsa : nodeSize ca < nodeSize (el "div" [] [ca, cb] none (some "P")) := by
    have := nodeSize_pos cb
    omega
  have hsb : nodeSize cb < nodeSize (el "div" [] [ca, cb] none (some "P")) := by
    have := nodeSize_pos ca
    omega
  have hinnerB : diffNodesF (nodeSize (el "div" [] [ca, cb] none (some "P"))) cb cb [0]
      = some [] := diffNodesF_self _ cb [0] hwb hsb
  have hinnerA : diffNodesF (nodeSize (el "div" [] [ca, cb] none (some "P"))) ca ca [1]
      = some [] := diffNodesF_self _ ca [1] hwa hsa
  simp only [el] at hinnerA hinnerB
  constructor
  · unfold diffNodes
    simp only [diffNodesF, diffChildrenF, diffKeyedChildrenF, diffAttrs,
      keysMapN, keysMapFrom, keyRemovals, dedupLast, lookupLast, keyedGoF, unkeyedGoF,
      removalScan, removalScanFrom, el, VNode.is_text, attrsHas, attrsGet,
      hka, hkb, hkab, hkba, beq_self_eq_true, hinnerA, hinnerB]
    simp [hka, hkb, hkne, hinnerA, hinnerB]
  · have hbia : (ca.djust_id == some ib) = false := by
      rw [hia]
      exact beq_eq_false_iff_ne.mpr (by simp [hine])
    have hbib : (cb.djust_id == some ib) = true := by
      rw [hib]
      exact beq_self_eq_true _
    have hbaa : (ca.djust_id == some ia) = true := by
      rw [hia]
      exact beq_self_eq_true _
    have hbba : (cb.djust_id == some ia) = false := by
      rw [hib]
      exact beq_eq_false_iff_ne.mpr (by simp [Ne.symm hine])
    simp only [applyPatches, applyPatchesP, depthsOf, snapIds, getNode, levelsGoP,
      applyLevelP, removesAt, insertsAt, movesAt, othersAt, stableSortBy, insSorted,
      movesGoP, stepMoveP, updateAtP, othersGoP, el, hia, hib,
      List.enum, List.filterMap, List.filter, List.map, List.foldl, List.dedup]
    simp [hbia, hbib, hbaa, hbba, List.findIdx?_cons, List.insertNth,
      List.insertIdx_zero, List.insertIdx_succ_cons, List.eraseIdx_cons_succ,
      List.eraseIdx_cons_zero]

/-- C5 amended witness: the concrete swap scenario instantiating the
theorem. -/
theorem keyed_swap_two_moves_witness :
    diffNodes (el "div" []
        [el "li" [] [txt "A"] (some "a") (some "ia"),
         el "li" [] [txt "B"] (some "b") (some "ib")] none (some "P"))
      (el "div" []
        [el "li" [] [txt "B"] (some "b") (some "ib"),
         el "li" [] [txt "A"] (some "a") (some "ia")] none (some "P2")) [] =
      [Patch.moveChild [] (some "P") 1 0, Patch.moveChild [] (some "P") 0 1] ∧
    (applyPatches (el "div" []
        [el "li" [] [txt "A"] (some "a") (some "ia"),
         el "li" [] [txt "B"] (some "b") (some "ib")] none (some "P"))
      [Patch.moveChild [] (some "P") 1 0, Patch.moveChild [] (some "P") 0 1]).children =
      [el "li" [] [txt "B"] (some "b") (some "ib"),
       el "li" [] [txt "A"] (some "a") (some "ia")] :=
  keyed_swap_two_moves
    (el "li" [] [txt "A"] (some "a") (some "ia"))
    (el "li" [] [txt "B"] (some "b") (some "ib"))
    "a" "b" "ia" "ib" rfl rfl (by decide) rfl rfl (by decide) (by decide) (by decide)

theorem setGetSelf : ∀ {l : List VNode} {i : Nat} {c : VNode},
    l.get? i = some c → l.set i c = l := by
  intro l
  induction l with
  | nil =>
    intro i c h
    cases h
  | cons a rest ih =>
    intro i c h
    match i, h with
    | 0, h =>
      cases h
      rfl
    | i + 1, h =>
      simp only [List.set]
      rw [ih h]

theorem updateAt_unresolved : ∀ {t : VNode} {path : List Nat}
    (f : VNode → VNode), getNode t path = none → updateAt t path f = t := by
  intro t path
  induction path generalizing t with
  | nil =>
    intro f h
    cases h
  | cons i rest ih =>
    intro f h
    rcases hc : t.children.get? i with _ | c
    · simp only [updateAt, hc]
    · simp only [getNode, hc] at h
      simp only [updateAt, hc]
      rw [ih f h, setGetSelf hc]
      cases t
      rfl

theorem updateAtP_unresolved : ∀ {t : VNode} {path : List Nat}
    (f : VNode → Option VNode), getNode t path = none → updateAtP t path f = some t := by
  intro t path
  induction path generalizing t with
  | nil =>
    intro f h
    cases h
  | cons i rest ih =>
    intro f h
    rcases hc : t.children.get? i with _ | c
    · simp only [updateAtP, hc]
    · simp only [getNode, hc] at h
      simp only [updateAtP, hc]
      rw [ih f h]
      simp only [Option.map_some']
      rw [setGetSelf hc]
      cases t
      rfl

theorem updateAt_id_on_target : ∀ {t : VNode} {path : List Nat} {tgt : VNode}
    {f : VNode → VNode}, getNode t path = some tgt → f tgt = tgt →
    updateAt t path f = t := by
  intro t path
  induction path generalizing t with
  | nil =>
    intro tgt f h hf
    cases h
    exact hf
  | cons i rest ih =>
    intro tgt f h hf
    rcases hc : t.children.get? i with _ | c
    · simp only [updateAt, hc]
    · simp only [getNode, hc] at h
      simp only [updateAt, hc]
      rw [ih h hf, setGetSelf hc]
      cases t
      rfl

theorem updateAtP_noop_on_target : ∀ {t : VNode} {path : List Nat} {tgt : VNode}
    {f : VNode → Option VNode}, getNode t path = some tgt → f tgt = some tgt →
    updateAtP t path f = some t := by
  intro t path
  induction path generalizing t with
  | nil =>
    intro tgt f h hf
    cases h
    exact hf
  | cons i rest ih =>
    intro tgt f h hf
    rcases hc : t.children.get? i with _ | c
    · simp only [updateAtP, hc]
    · simp only [getNode, hc] at h
      simp only [updateAtP, hc]
      rw [ih h hf]
      simp only [Option.map_some']
      rw [setGetSelf hc]
      cases t
      rfl

/-- C7 amended: per-patch failure semantics of the appliers.  A patch whose
path does not resolve is a silent no-op in both the single-patch applier
(`apply_patch`) and the batch applier (`apply_patches`), with no error
surfaced (the result is `some` of the unchanged tree, never a panic); an
out-of-range `RemoveChild` index is a no-op in both appliers; out-of-range
`InsertChild` and `MoveChild` indices are no-ops in the single-patch
applier.  (The batch applier instead clamps insert/move destination indices
to the end of the child list — see the counterexample — and its index
fallback for `MoveChild` can panic.) -/
theorem applier_noop_semantics :
    (∀ (t : VNode) (p : Patch), getNode t p.path = none → applyPatchP t p = some t) ∧
    (∀ (t : VNode) (path : List Nat) (d : Option String) (i : Nat) (tgt : VNode),
      getNode t path = some tgt → tgt.children.length ≤ i →
      applyPatchP t (Patch.removeChild path d i) = some t) ∧
    (∀ (t : VNode) (path : List Nat) (d : Option String) (i : Nat) (node tgt : VNode),
      getNode t path = some tgt → tgt.children.length < i →
      applyPatchP t (Patch.insertChild path d i node) = some t) ∧
    (∀ (t : VNode) (path : List Nat) (d : Option String) (a b : Nat) (tgt : VNode),
      getNode t path = some tgt → ¬(a < tgt.children.length ∧ b ≤ tgt.children.length) →
      applyPatchP t (Patch.moveChild path d a b) = some t) ∧
    (∀ (t : VNode) (p : Patch), getNode t p.path = none → applyPatchesP t [p] = some t) ∧
    (∀ (t : VNode) (path : List Nat) (d : Option String) (i : Nat) (tgt : VNode),
      getNode t path = some tgt → tgt.children.length ≤ i →
      applyPatchesP t [Patch.removeChild path d i] = some t) := by
  have h1 : ∀ (t : VNode) (p : Patch), getNode t p.path = none → applyPatchP t p = some t := by
    intro t p h
    cases p with
    | replace path d node =>
      simp only [Patch.path] at h
      simp only [applyPatchP]
      rw [updateAt_unresolved _ h]
    | setText path d s =>
      simp only [Patch.path] at h
      simp only [applyPatchP]
      rw [updateAt_unresolved _ h]
    | setAttr path d k v =>
      simp only [Patch.path] at h
      simp only [applyPatchP]
      rw [updateAt_unresolved _ h]
    | removeAttr path d k =>
      simp only [Patch.path] at h
      simp only [applyPatchP]
      rw [updateAt_unresolved _ h]
    | insertChild path d i node =>
      simp only [Patch.path] at h
      simp only [applyPatchP]
      rw [updateAt_unresolved _ h]
    | removeChild path d i =>
      simp only [Patch.path] at h
      simp only [applyPatchP]
      rw [updateAt_unresolved _ h]
    | moveChild path d a b =>
      simp only [Patch.path] at h
      simp only [applyPatchP]
      exact updateAtP_unresolved _ h
  refine ⟨h1, ?_, ?_, ?_, ?_, ?_⟩
  · intro t path d i tgt h hle
    simp only [applyPatchP]
    rw [updateAt_id_on_target h (by rw [if_neg (by omega)])]
  · intro t path d i node tgt h hlt
    simp only [applyPatchP]
    rw [updateAt_id_on_target h (by rw [if_neg (by omega)])]
  · intro t path d a b tgt h hrange
    simp only [applyPatchP]
    exact updateAtP_noop_on_target h (by rw [if_neg hrange])
  · intro t p h
    have hrm : ∀ i, stepRemove t p.path i = t := fun i =>
      updateAt_unresolved _ h
    have hins : ∀ i node, stepInsert t p.path i node = t := fun i node =>
      updateAt_unresolved _ h
    have hmv : ∀ snap a b, stepMoveP snap t p.path a b = some t := fun snap a b =>
      updateAtP_unresolved _ h
    cases p with
    | replace path d node =>
      simp only [Patch.path] at h hrm hins hmv
      simp [applyPatchesP, levelsGoP, applyLevelP, depthsOf, stableSortBy, insSorted,
        removesAt, movesAt, insertsAt, othersAt, Patch.path, othersGoP, movesGoP,
        h1 t (Patch.replace path d node) h]
    | setText path d s =>
      simp only [Patch.path] at h hrm hins hmv
      simp [applyPatchesP, levelsGoP, applyLevelP, depthsOf, stableSortBy, insSorted,
        removesAt, movesAt, insertsAt, othersAt, Patch.path, othersGoP, movesGoP,
        h1 t (Patch.setText path d s) h]
    | setAttr path d k v =>
      simp only [Patch.path] at h hrm hins hmv
      simp [applyPatchesP, levelsGoP, applyLevelP, depthsOf, stableSortBy, insSorted,
        removesAt, movesAt, insertsAt, othersAt, Patch.path, othersGoP, movesGoP,
        h1 t (Patch.setAttr path d k v) h]
    | removeAttr path d k =>
      simp only [Patch.path] at h hrm hins hmv
      simp [applyPatchesP, levelsGoP, applyLevelP, depthsOf, stableSortBy, insSorted,
        removesAt, movesAt, insertsAt, othersAt, Patch.path, othersGoP, movesGoP,
        h1 t (Patch.removeAttr path d k) h]
    | insertChild path d i node =>
      simp only [Patch.path] at h hrm hins hmv
      simp [applyPatchesP, levelsGoP, applyLevelP, depthsOf, stableSortBy, insSorted,
        removesAt, movesAt, insertsAt, othersAt, Patch.path, othersGoP, movesGoP, hins]
    | removeChild path d i =>
      simp only [Patch.path] at h hrm hins hmv
      simp [applyPatchesP, levelsGoP, applyLevelP, depthsOf, stableSortBy, insSorted,
        removesAt, movesAt, insertsAt, othersAt, Patch.path, othersGoP, movesGoP, hrm]
    | moveChild path d a b =>
      simp only [Patch.path] at h hrm hins hmv
      simp [applyPatchesP, levelsGoP, applyLevelP, depthsOf, stableSortBy, insSorted,
        removesAt, movesAt, insertsAt, othersAt, Patch.path, othersGoP, movesGoP, hmv]
  · intro t path d i tgt h hle
    have hrm : stepRemove t path i = t :=
      updateAt_id_on_target h (by rw [if_neg (by omega)])
    simp [applyPatchesP, levelsGoP, applyLevelP, depthsOf, stableSortBy, insSorted,
      removesAt, movesAt, insertsAt, othersAt, Patch.path, othersGoP, movesGoP, hrm]

/-- C7 counterexample: in the batch applier an `InsertChild` whose index
(5) is out of range for the resolved childless node is not a no-op — the
index is clamped and the child is appended, changing the tree. -/
theorem out_of_range_insert_not_noop :
    (el "div" [] [] none (some "0")).children.length = 0 ∧
    (applyPatches (el "div" [] [] none (some "0"))
      [Patch.insertChild [] none 5 (txt "x")]).children.length = 1 := by
  constructor
  · rfl
  · rfl

/-- C7 amended witness: each no-op clause at a concrete input. -/
theorem applier_noop_semantics_witness :
    applyPatchP (el "div" [] [] none (some "0")) (Patch.setText [3] none "x") =
      some (el "div" [] [] none (some "0")) ∧
    applyPatchP (el "div" [] [] none (some "0")) (Patch.removeChild [] none 2) =
      some (el "div" [] [] none (some "0")) ∧
    applyPatchP (el "div" [] [] none (some "0")) (Patch.insertChild [] none 7 (txt "x")) =
      some (el "div" [] [] none (some "0")) ∧
    applyPatchP (el "div" [] [] none (some "0")) (Patch.moveChild [] none 0 1) =
      some (el "div" [] [] none (some "0")) ∧
    applyPatchesP (el "div" [] [] none (some "0")) [Patch.setText [3] none "x"] =
      some (el "div" [] [] none (some "0")) ∧
    applyPatchesP (el "div" [] [] none (some "0")) [Patch.removeChild [] none 2] =
      some (el "div" [] [] none (some "0")) :=
  ⟨applier_noop_semantics.1 _ _ rfl,
   applier_noop_semantics.2.1 _ [] none 2 _ rfl (by decide),
   applier_noop_semantics.2.2.1 _ [] none 7 (txt "x") _ rfl (by decide),
   applier_noop_semantics.2.2.2.1 _ [] none 0 1 _ rfl (by decide),
   applier_noop_semantics.2.2.2.2.1 _ _ rfl,
   applier_noop_semantics.2.2.2.2.2 _ [] none 2 _ rfl (by decide)⟩

theorem get?_lt_length {l : List VNode} {i : Nat} {c : VNode}
    (h : l.get? i = some c) : i < l.length := by
  induction l generalizing i with
  | nil => cases h
  | cons a rest ih =>
    match i, h with
    | 0, h => simp
    | i + 1, h =>
      have := ih h
      simp only [List.length_cons]
      omega

theorem updateAt_setText_agree : ∀ (path : List Nat) (t : VNode) (s : String),
    (getNode t path).isSome = true →
    AgreeExceptText path s t (updateAt t path (fun n =>
      { n with text := some s })) := by
  intro path
  induction path with
  | nil =>
    intro t s _
    exact ⟨rfl, rfl, rfl, rfl, rfl, rfl⟩
  | cons i rest ih =>
    intro t s h
    rcases hc : t.children.get? i with _ | c
    · rw [getNode, hc] at h
      cases h
    · rw [getNode, hc] at h
      simp only [updateAt, hc]
      refine ⟨rfl, rfl, rfl, rfl, rfl, List.length_set _ _ _, ?_, ?_⟩
      · intro j hj
        exact List.get?_set_ne _ _ (fun he => hj he.symm)
      · refine ⟨c, updateAt c rest (fun n => { n with text := some s }), hc, ?_, ih c s h⟩
        exact List.get?_set_eq_of_lt _ (get?_lt_length hc)

/-- C10: applying a `SetText` patch whose path resolves to any node — even
an element node; `apply_patch` performs no text-node check — sets only that
node's `text` field to the patch text, leaving the node's tag, attributes,
children, key and identity, and every other node of the tree, unchanged. -/
theorem set_text_frame_effect (t : VNode) (path : List Nat) (d : Option String)
    (s : String) (h : (getNode t path).isSome = true) :
    AgreeExceptText path s t (applyPatch t (Patch.setText path d s)) := by
  have he : applyPatch t (Patch.setText path d s)
      = updateAt t path (fun n => { n with text := some s }) := rfl
  rw [he]
  exact updateAt_setText_agree path t s h

/-- C10 witness: setting text on an element node (a `div` with a child,
attributes, a key and an identity). -/
theorem set_text_frame_effect_witness :
    AgreeExceptText [0] "hello"
      (el "div" [] [el "span" [("class", "c")] [txt "old"] (some "k") (some "1")] none (some "0"))
      (applyPatch
        (el "div" [] [el "span" [("class", "c")] [txt "old"] (some "k") (some "1")] none (some "0"))
        (Patch.setText [0] none "hello")) :=
  set_text_frame_effect _ [0] none "hello" rfl

/-- C4 counterexample: on parser-produced trees, diff does emit a `SetAttr`
for the key-carrier `data-key` (the only attribute diff excludes is
`data-dj-id`, not the parser's `data-dj`/`data-key`), and a changed
identity attribute `data-dj` also generates a `SetAttr`. -/
theorem reserved_attrs_do_generate_patches :
    diffNodes pDivKeyA pDivKeyB [] = [Patch.setAttr [] (some "0") "data-key" "b"] ∧
    ((diffNodes pIdOld pIdNew []).any (fun p => p.isAttrPatchFor "data-dj")) = true := by
  constructor
  · rfl
  · rfl

theorem keyedGoF_isSome {next : VNode → VNode → List Nat → Option (List Patch)}
    {cs : List VNode} {path : List Nat} {pid : Option String}
    (hnext : ∀ o ∈ cs, ∀ (n : VNode) (q : List Nat), (next o n q).isSome = true) :
    ∀ (rest : List VNode) (i : Nat) (po : List Nat),
      (keyedGoF next (keysMapN cs) path pid rest i po).isSome = true := by
  intro rest
  induction rest with
  | nil =>
    intro i po
    rfl
  | cons n rest ih =>
    intro i po
    rcases hk : n.key with _ | k
    · simp only [keyedGoF, hk]
      exact ih (i + 1) po
    · rcases hlook : lookupLast (keysMapN cs) k with _ | v
      · simp only [keyedGoF, hk, hlook]
        rcases hrec : keyedGoF next (keysMapN cs) path pid rest (i + 1) po with _ | r
        · have := ih (i + 1) po
          rw [hrec] at this
          cases this
        · rfl
      · rcases v with ⟨oi, onode⟩
        have hmem : onode ∈ cs := mem_of_get? (lookupLast_keysMap_get hlook).1
        rcases hinner : next onode n (path ++ [i]) with _ | inner
        · have := hnext onode hmem n (path ++ [i])
          rw [hinner] at this
          cases this
        · simp only [keyedGoF, hk, hlook, hinner]
          rcases hrec : keyedGoF next (keysMapN cs) path pid rest (i + 1) (po ++ [oi]) with _ | r
          · have := ih (i + 1) (po ++ [oi])
            rw [hrec] at this
            cases this
          · rfl

theorem unkeyedGoF_isSome {next : VNode → VNode → List Nat → Option (List Patch)}
    {oldC : List VNode} {path : List Nat} {pid : Option String}
    (hnext : ∀ o ∈ oldC, ∀ (n : VNode) (q : List Nat), (next o n q).isSome = true) :
    ∀ (rest : List VNode) (i : Nat) (po : List Nat),
      (unkeyedGoF next oldC path pid rest i po).isSome = true := by
  intro rest
  induction rest with
  | nil =>
    intro i po
    rfl
  | cons n rest ih =>
    intro i po
    by_cases hk : n.key.isNone = true
    · rcases hc : oldC.get? i with _ | o
      · simp only [unkeyedGoF, hk, hc, if_true]
        rcases hrec : unkeyedGoF next oldC path pid rest (i + 1) po with _ | r
        · have := ih (i + 1) po
          rw [hrec] at this
          cases this
        · rfl
      · by_cases hcond : (o.key.isNone && !(po.contains i)) = true
        · rcases hinner : next o n (path ++ [i]) with _ | inner
          · have := hnext o (mem_of_get? hc) n (path ++ [i])
            rw [hinner] at this
            cases this
          · simp only [unkeyedGoF, hk, hc, hcond, hinner, if_true]
            rcases hrec : unkeyedGoF next oldC path pid rest (i + 1) (po ++ [i]) with _ | r
            · have := ih (i + 1) (po ++ [i])
              rw [hrec] at this
              cases this
            · rfl
        · rw [Bool.not_eq_true] at hcond
          simp only [unkeyedGoF, hk, hc, hcond, if_true, Bool.false_eq_true, if_false]
          rcases hrec : unkeyedGoF next oldC path pid rest (i + 1) po with _ | r
          · have := ih (i + 1) po
            rw [hrec] at this
            cases this
          · rfl
    · rw [Bool.not_eq_true] at hk
      simp only [unkeyedGoF, hk, Bool.false_eq_true, if_false]
      exact ih (i + 1) po

theorem indexedGoF_isSome {next : VNode → VNode → List Nat → Option (List Patch)}
    {path : List Nat} :
    ∀ (os ns : List VNode) (i : Nat),
      (∀ o ∈ os, ∀ (n : VNode) (q : List Nat), (next o n q).isSome = true) →
      (indexedGoF next path os ns i).isSome = true := by
  intro os
  induction os with
  | nil =>
    intro ns i _
    match ns with
    | [] => rfl
    | _ :: _ => rfl
  | cons o os ih =>
    intro ns i hnext
    match ns with
    | [] => rfl
    | n :: ns =>
      rcases hinner : next o n (path ++ [i]) with _ | inner
      · have := hnext o (List.mem_cons_self _ _) n (path ++ [i])
        rw [hinner] at this
        cases this
      · simp only [indexedGoF, hinner]
        rcases hrec : indexedGoF next path os ns (i + 1) with _ | r
        · have := ih ns (i + 1) (fun o2 h2 n2 q2 => hnext o2 (List.mem_cons_of_mem o h2) n2 q2)
          rw [hrec] at this
          cases this
        · rfl

theorem diffNodesF_isSome : ∀ (fuel : Nat) (old new : VNode) (path : List Nat),
    nodeSize old < fuel → (diffNodesF fuel old new path).isSome = true := by
  intro fuel
  induction fuel with
  | zero =>
    intro old new path h
    omega
  | succ fuel ih =>
    intro old new path hsz
    simp only [diffNodesF]
    by_cases htag : old.tag ≠ new.tag
    · rw [if_pos htag]
      rfl
    · rw [if_neg htag]
      by_cases ht : old.is_text = true
      · rw [if_pos ht]
        by_cases htx : old.text ≠ new.text
        · rw [if_pos htx]
          match new.text with
          | some t => rfl
          | none => rfl
        · rw [if_neg htx]
          rfl
      · rw [if_neg ht]
        have hnext : ∀ o ∈ old.children, ∀ (n : VNode) (q : List Nat),
            (diffNodesF fuel o n q).isSome = true := by
          intro o hmem n q
          have := nodeSize_child_lt hmem
          exact ih o n q (by omega)
        have hch : (diffChildrenF (diffNodesF fuel) old new path old.djust_id).isSome
            = true := by
          unfold diffChildrenF
          by_cases hmk : (attrsHas old.attrs "data-djust-replace"
              || attrsHas new.attrs "data-djust-replace") = true
          · rw [if_pos hmk]
            rfl
          · rw [Bool.not_eq_true] at hmk
            rw [if_neg (by rw [hmk]; exact Bool.false_ne_true)]
            by_cases hkeys : (new.children.any (fun n => n.key.isSome)) = true
            · rw [if_pos hkeys]
              unfold diffKeyedChildrenF
              dsimp only
              rcases hkg : keyedGoF (diffNodesF fuel) (keysMapN old.children) path
                  old.djust_id new.children 0 [] with _ | r1
              · have := @keyedGoF_isSome (diffNodesF fuel) old.children path
                  old.djust_id hnext new.children 0 []
                rw [hkg] at this
                cases this
              · rcases r1 with ⟨kps, po1⟩
                rcases hug : unkeyedGoF (diffNodesF fuel) old.children path
                    old.djust_id new.children 0 po1 with _ | r2
                · have := @unkeyedGoF_isSome (diffNodesF fuel) old.children path
                    old.djust_id hnext new.children 0 po1
                  rw [hug] at this
                  cases this
                · rcases r2 with ⟨ups, po2⟩
                  simp only [hug, Option.isSome_some]
            · rw [if_neg hkeys]
              unfold diffIndexedChildrenF
              rcases hig : indexedGoF (diffNodesF fuel) path old.children
                  new.children 0 with _ | r
              · have := @indexedGoF_isSome (diffNodesF fuel) path old.children
                  new.children 0 hnext
                rw [hig] at this
                cases this
              · rfl
        rcases hc : diffChildrenF (diffNodesF fuel) old new path old.djust_id with _ | cps
        · rw [hc] at hch
          cases hch
        · rfl

/-- The fuel budget of the `diffNodes` wrapper always suffices: the wrapper
is the (unique) `some` value of the fuel-indexed recursion. -/
theorem diffNodes_total (old new : VNode) (path : List Nat) :
    diffNodesF (nodeSize old + 1) old new path = some (diffNodes old new path) := by
  have h := diffNodesF_isSome (nodeSize old + 1) old new path (by omega)
  rcases hd : diffNodesF (nodeSize old + 1) old new path with _ | ps
  · rw [hd] at h
    cases h
  · rw [diffNodes, hd]
    rfl
